import Mathlib

/-!
Shallow embedding of the Geo-FI repository (src/parser.py, src/geometry.py,
src/visualizer.py) for checking its specification.

Text is modelled as List Char.  Python floats are modelled as exact rationals.
The sympy expression parser (parse_expr) is external library code, not part of
the repository; following the specification it is modelled as an abstract
parameter P : List Char -> Except (List Char) SymExpr (the error component is
the exception text).
-/

set_option maxRecDepth 100000

namespace GeoFI

/-- Python whitespace set used by str.strip and the regex class \s
(space, tab, newline, carriage return, vertical tab, form feed). -/
def isWs (c : Char) : Bool :=
  c = ' ' || c = '\t' || c = '\n' || c = '\r' || c = '\x0b' || c = '\x0c'

/-- Lower-case table for str.lower, restricted to the character repertoire this
program works with: ASCII letters and the Russian Cyrillic alphabet.
Python's str.lower lowercases all of Unicode; inputs of this program only use
these two scripts. -/
def lowerTable : List (Char × Char) :=
  [('A', 'a'), ('B', 'b'), ('C', 'c'), ('D', 'd'), ('E', 'e'), ('F', 'f'),
   ('G', 'g'), ('H', 'h'), ('I', 'i'), ('J', 'j'), ('K', 'k'), ('L', 'l'),
   ('M', 'm'), ('N', 'n'), ('O', 'o'), ('P', 'p'), ('Q', 'q'), ('R', 'r'),
   ('S', 's'), ('T', 't'), ('U', 'u'), ('V', 'v'), ('W', 'w'), ('X', 'x'),
   ('Y', 'y'), ('Z', 'z'),
   ('А', 'а'), ('Б', 'б'), ('В', 'в'), ('Г', 'г'), ('Д', 'д'), ('Е', 'е'),
   ('Ж', 'ж'), ('З', 'з'), ('И', 'и'), ('Й', 'й'), ('К', 'к'), ('Л', 'л'),
   ('М', 'м'), ('Н', 'н'), ('О', 'о'), ('П', 'п'), ('Р', 'р'), ('С', 'с'),
   ('Т', 'т'), ('У', 'у'), ('Ф', 'ф'), ('Х', 'х'), ('Ц', 'ц'), ('Ч', 'ч'),
   ('Ш', 'ш'), ('Щ', 'щ'), ('Ъ', 'ъ'), ('Ы', 'ы'), ('Ь', 'ь'), ('Э', 'э'),
   ('Ю', 'ю'), ('Я', 'я'), ('Ё', 'ё')]

/-- Lower-casing of one character (model of str.lower, per character). -/
def toLowerCh (c : Char) : Char := (lowerTable.lookup c).getD c

/-- Trailing-whitespace removal (the right half of Python str.strip). -/
def dropTrailingWs : List Char → List Char
  | [] => []
  | c :: rest =>
    let r := dropTrailingWs rest
    if r.isEmpty && isWs c then [] else c :: r

/-- Model of Python str.strip: remove leading and trailing whitespace. -/
def stripChars (s : List Char) : List Char :=
  dropTrailingWs (s.dropWhile isWs)

/-- Fuel-indexed worker for replaceAll; the fuel only serves structural
recursion and one unit is always enough for one consumed character. -/
def replaceAllGo (old new : List Char) : Nat → List Char → List Char
  | 0, s => s
  | _ + 1, [] => []
  | fuel + 1, c :: rest =>
    if old ≠ [] ∧ old.isPrefixOf (c :: rest) then
      new ++ replaceAllGo old new fuel ((c :: rest).drop old.length)
    else
      c :: replaceAllGo old new fuel rest

/-- Model of Python str.replace old new: replace every non-overlapping
occurrence of old, scanning left to right.  (The keys used by the program are
never empty; for old = [] this model is the identity.) -/
def replaceAll (old new s : List Char) : List Char :=
  replaceAllGo old new s.length s

/-- Whether pat occurs as a contiguous substring. -/
def occurs (pat : List Char) : List Char → Bool
  | [] => pat.isEmpty
  | c :: rest => pat.isPrefixOf (c :: rest) || occurs pat rest

/-- Fuel-indexed worker for absBars. -/
def absBarsGo : Nat → List Char → List Char
  | 0, s => s
  | _ + 1, [] => []
  | fuel + 1, c :: rest =>
    if c = '|' then
      let pre := rest.takeWhile (fun x => x ≠ '|')
      let post := rest.dropWhile (fun x => x ≠ '|')
      if pre ≠ [] ∧ post ≠ [] then
        ('a' :: 'b' :: 's' :: '(' :: pre ++ [')']) ++ absBarsGo fuel post.tail
      else
        c :: absBarsGo fuel rest
    else c :: absBarsGo fuel rest

/-- Model of re.sub applied with the pattern matching a bar, a nonempty run of
non-bar characters and a closing bar, replaced by abs of the run
(parser.py line 32).  The scan moves one character forward when no match
starts at the current position, exactly like the regex engine. -/
def absBars (s : List Char) : List Char :=
  absBarsGo s.length s

/-- The Cyrillic function-name table of parser.py lines 6-14, in the
insertion order the Python dict iterates it. -/
def FUNCTION_MAPPINGS : List (List Char × List Char) :=
  [("синус".toList, "sin".toList), ("косинус".toList, "cos".toList),
   ("тангенс".toList, "tan".toList), ("лог".toList, "log".toList),
   ("корень".toList, "sqrt".toList), ("экспонента".toList, "exp".toList),
   ("модуль".toList, "abs".toList)]

/-- The replacement loop of parser.py lines 34-35, over an arbitrary table. -/
def applyMappings (maps : List (List Char × List Char)) (s : List Char) : List Char :=
  maps.foldl (fun acc p => replaceAll p.1 p.2 acc) s

/-- Model of preprocess_input (parser.py lines 25-36): lower-case and strip,
replace the doubled caret, rewrite bar pairs to abs, then apply the Cyrillic
function-name replacements in table order. -/
def preprocess_input (s : List Char) : List Char :=
  applyMappings FUNCTION_MAPPINGS
    (absBars (replaceAll "^^".toList "**".toList
      (dropTrailingWs ((s.map toLowerCh).dropWhile isWs))))

mutual
/-- Symbolic expressions produced by parsing.  The repository delegates plain
expression parsing to the external sympy library; the only expression
construction performed by repository code itself is sympy.Piecewise
(parser.py line 224), so the model keeps parser output abstract (atom) and
models the piecewise constructor. -/
inductive SymExpr where
  | atom : List Char → SymExpr
  | piecewise : PieceList → SymExpr
deriving DecidableEq

/-- A list of piecewise branches, each an expression with its condition. -/
inductive PieceList where
  | nil : PieceList
  | cons : SymExpr → SymExpr → PieceList → PieceList
deriving DecidableEq
end

/-- An expression parser in the role of sympy's parse_expr: returns the parsed
expression or the exception text. -/
abbrev ExprParser := List Char → Except (List Char) SymExpr

/-- Geometry payload of a successful geometry classification
(the dict fields of parser.py lines 95, 108, 118, 128). -/
inductive GeoResult where
  | circle (r : ℚ)
  | triangle (a b c : ℚ)
  | rectangle (width height : ℚ)
  | ellipse (width height : ℚ)
deriving DecidableEq

/-- Result dictionary of parse_input, one variant per value of the
dict field named type. -/
inductive ParsedRequest where
  | function (data : List SymExpr)
  | parametric (x y : SymExpr) (raw : List Char)
  | polar (data : SymExpr) (raw : List Char)
  | threeD (data : SymExpr) (raw : List Char)
  | geometry (g : GeoResult)
  | error (message : List Char)
deriving DecidableEq

/-- Shape tags of GEOMETRY_KEYWORDS (parser.py lines 16-23). -/
inductive GeoShape where
  | circle | triangle | rectangle | ellipse | parabola
deriving DecidableEq

/-- The geometry keyword table in dict iteration order. -/
def GEOMETRY_KEYWORDS : List (List Char × GeoShape) :=
  [("круг".toList, .circle), ("окружность".toList, .circle),
   ("треугольник".toList, .triangle), ("прямоугольник".toList, .rectangle),
   ("эллипс".toList, .ellipse), ("парабола".toList, .parabola)]

/-- First geometry keyword that the text starts with (parser.py lines 46-48). -/
def findKeyword (text : List Char) : Option GeoShape :=
  GEOMETRY_KEYWORDS.findSome? fun p => if p.1.isPrefixOf text then some p.2 else none

/-- Numeric value of a digit run with an optional fractional digit run,
as float() of the matched text, modelled exactly in the rationals. -/
def numValue (ip : List Char) (fp : Option (List Char)) : ℚ :=
  let ipv : ℚ := (ip.foldl (fun a c => 10 * a + (c.toNat - 48)) 0 : ℕ)
  match fp with
  | none => ipv
  | some f => ipv + ((f.foldl (fun a c => 10 * a + (c.toNat - 48)) 0 : ℕ) : ℚ) / ((10 : ℚ) ^ f.length)

/-- Try to match the regex fragment of whitespace, an equals sign, whitespace
and a decimal numeral group at exactly this position. -/
def matchEqNumber (s : List Char) : Option ℚ :=
  match (s.dropWhile isWs) with
  | '=' :: s2 =>
    let s3 := s2.dropWhile isWs
    let ip := s3.takeWhile Char.isDigit
    let r1 := s3.dropWhile Char.isDigit
    if ip.isEmpty then none
    else
      match r1 with
      | '.' :: r2 =>
        let fp := r2.takeWhile Char.isDigit
        if fp.isEmpty then some (numValue ip none) else some (numValue ip (some fp))
      | _ => some (numValue ip none)
  | _ => none

/-- Try each alternation key at this position; regex alternation tries keys in
listed order and, when a key matches but the rest of the pattern fails,
backtracks to the next key. -/
def tryKeysAt (keys : List (List Char)) (s : List Char) : Option ℚ :=
  match keys with
  | [] => none
  | k :: ks =>
    match (if k.isPrefixOf s then matchEqNumber (s.drop k.length) else none) with
    | some v => some v
    | none => tryKeysAt ks s

/-- Model of re.search for the parameter pattern of key alternatives followed
by equals and a numeral, scanning positions left to right. -/
def matchNumAfterKeys (keys : List (List Char)) : List Char → Option ℚ
  | [] => none
  | c :: rest =>
    match tryKeysAt keys (c :: rest) with
    | some v => some v
    | none => matchNumAfterKeys keys rest

/-- Model of parse_geometry (parser.py lines 89-135).  The body is pure regex
extraction; the surrounding try/except never fires. -/
def parse_geometry (text : List Char) (shape : GeoShape) : ParsedRequest :=
  match shape with
  | .circle =>
    match matchNumAfterKeys ["r".toList, "радиус".toList] text with
    | some r => .geometry (.circle r)
    | none => .error "Укажите радиус, например: круг r=5".toList
  | .triangle =>
    match matchNumAfterKeys ["a".toList] text, matchNumAfterKeys ["b".toList] text,
          matchNumAfterKeys ["c".toList] text with
    | some a, some b, some c => .geometry (.triangle a b c)
    | _, _, _ => .error "Укажите стороны a, b, c, например: треугольник a=3 b=4 c=5".toList
  | .rectangle =>
    match matchNumAfterKeys ["a".toList, "width".toList, "ширина".toList] text,
          matchNumAfterKeys ["b".toList, "height".toList, "высота".toList] text with
    | some a, some b => .geometry (.rectangle a b)
    | _, _ => .error "Укажите стороны, например: прямоугольник a=5 b=3".toList
  | .ellipse =>
    match matchNumAfterKeys ["a".toList] text, matchNumAfterKeys ["b".toList] text with
    | some a, some b => .geometry (.ellipse (a * 2) (b * 2))
    | _, _ => .error "Укажите полуоси a и b, например: эллипс a=4 b=2".toList
  | .parabola => .error "Фигура parabola пока не поддерживается полностью.".toList

/-- Word characters for the regex word boundary, Unicode-aware as in Python 3:
ASCII alphanumerics, underscore, and (for this program's repertoire) Cyrillic
letters. -/
def isWordChar (c : Char) : Bool :=
  c.isAlphanum || c = '_' ||
    "абвгдежзийклмнопрстуфхцчшщъыьэюяёАБВГДЕЖЗИЙКЛМНОПРСТУФХЦЧШЩЪЫЬЭЮЯЁ".toList.contains c

/-- After the variable character: optional whitespace, then an equals sign not
followed by another equals sign.  The lookbehind for comparison characters in
the source regex is vacuous, because the character before the equals sign is
always the variable itself or whitespace. -/
def eqNotDoubled (rest : List Char) : Bool :=
  match rest.dropWhile isWs with
  | '=' :: '=' :: _ => false
  | '=' :: _ => true
  | _ => false

/-- The assignment pattern anchored at the start of the list (re.match). -/
def assignAt (v : Char) : List Char → Bool
  | c :: rest => c = v && eqNotDoubled rest
  | [] => false

/-- Scan carrying the previous character for the word boundary test. -/
def containsAssignAux (v : Char) (prev : Option Char) : List Char → Bool
  | [] => false
  | c :: rest =>
    ((prev.elim true fun p => !isWordChar p) && assignAt v (c :: rest))
      || containsAssignAux v (some c) rest

/-- Model of re.search for a word boundary, the variable, optional whitespace
and a bare equals sign (parser.py lines 52, 58, 66, 67). -/
def containsAssign (v : Char) (s : List Char) : Bool :=
  containsAssignAux v none s

/-- Model of re.split on the assignment pattern with maxsplit one, keeping the
text after the first match (parser.py lines 54, 59).  That split pattern has
no negative lookahead, unlike the search pattern. -/
def afterAssignAux (v : Char) (prev : Option Char) : List Char → List Char
  | [] => []
  | c :: rest =>
    if (prev.elim true fun p => !isWordChar p) && c = v then
      match rest.dropWhile isWs with
      | '=' :: r => r
      | _ => afterAssignAux v (some c) rest
    else afterAssignAux v (some c) rest

/-- Text after the first bare assignment to v. -/
def afterAssign (v : Char) (s : List Char) : List Char :=
  afterAssignAux v none s

/-- Model of parse_3d (parser.py lines 164-174). -/
def parse_3d (P : ExprParser) (z_str : List Char) : ParsedRequest :=
  match P z_str with
  | .ok e => .threeD e z_str
  | .error e => .error ("Ошибка разбора 3D функции: ".toList ++ e)

/-- Model of parse_polar (parser.py lines 150-162). -/
def parse_polar (P : ExprParser) (r_str : List Char) : ParsedRequest :=
  match P r_str with
  | .ok e => .polar e r_str
  | .error e => .error ("Ошибка разбора полярного уравнения: ".toList ++ e)

/-- Model of parse_parametric (parser.py lines 137-148); the x expression is
parsed first, so its failure text wins. -/
def parse_parametric (P : ExprParser) (x_str y_str : List Char) : ParsedRequest :=
  match P x_str with
  | .error e => .error ("Ошибка разбора параметрического уравнения: ".toList ++ e)
  | .ok ex =>
    match P y_str with
    | .error e => .error ("Ошибка разбора параметрического уравнения: ".toList ++ e)
    | .ok ey => .parametric ex ey ("x=".toList ++ x_str ++ ", y=".toList ++ y_str)

/-- The placeholder protecting semicolons inside brace blocks
(parser.py line 180). -/
def PLACEHOLDER : List Char := "##SEMICOLON##".toList

/-- Model of the re.sub that replaces semicolons inside each brace block with
the placeholder (parser.py lines 179-184).  The regex matches a brace, a
possibly empty run of characters other than a closing brace, and a closing
brace; on failure the scan advances one character. -/
def protectBracesGo : Nat → List Char → List Char
  | 0, s => s
  | _ + 1, [] => []
  | fuel + 1, c :: rest =>
    if c = '\x7b' then
      let inner := rest.takeWhile (fun x => x ≠ '\x7d')
      let post := rest.dropWhile (fun x => x ≠ '\x7d')
      if post ≠ [] then
        '\x7b' :: (replaceAll [';'] PLACEHOLDER inner ++ '\x7d' :: protectBracesGo fuel post.tail)
      else c :: protectBracesGo fuel rest
    else c :: protectBracesGo fuel rest

/-- Model of the re.sub that replaces semicolons inside each brace block with
the placeholder (parser.py lines 179-184); see protectBracesGo for the scan. -/
def protectBraces (s : List Char) : List Char :=
  protectBracesGo s.length s

/-- Fuel-indexed worker for splitOnStr. -/
def splitOnStrGo (sep : List Char) : Nat → List Char → List (List Char)
  | 0, s => [s]
  | _ + 1, [] => [[]]
  | fuel + 1, c :: rest =>
    if sep ≠ [] ∧ sep.isPrefixOf (c :: rest) then
      [] :: splitOnStrGo sep fuel ((c :: rest).drop sep.length)
    else
      match splitOnStrGo sep fuel rest with
      | [] => [[c]]
      | h :: t => (c :: h) :: t

/-- Model of Python str.split with a multi-character separator. -/
def splitOnStr (sep s : List Char) : List (List Char) :=
  splitOnStrGo sep s.length s

/-- Restore the protected semicolons of one part (parser.py line 194). -/
def restorePH (part : List Char) : List Char :=
  replaceAll PLACEHOLDER [';'] part

/-- Whitespace, an equals sign and whitespace, consumed from the front. -/
def stripAfterEq (rest : List Char) : Option (List Char) :=
  match rest.dropWhile isWs with
  | '=' :: r => some (r.dropWhile isWs)
  | _ => none

/-- Model of the re.sub removing a leading function head of the letter y or
f(x) followed by an equals sign (parser.py line 199). -/
def stripLeadYEq (p : List Char) : List Char :=
  match p with
  | 'y' :: rest => (stripAfterEq rest).getD p
  | 'f' :: '(' :: 'x' :: ')' :: rest => (stripAfterEq rest).getD p
  | _ => p

/-- Split at the first occurrence of sep, which is removed
(Python str.split with maxsplit one, when sep occurs). -/
def splitFirst (sep : Char) (l : List Char) : List Char × List Char :=
  (l.takeWhile (fun c => c ≠ sep), (l.dropWhile (fun c => c ≠ sep)).tail)

/-- Model of the piecewise branch loop of parser.py lines 208-220: a segment
with a comma contributes a parsed pair of expression and condition, a segment
without a comma is passed over, and any parse failure aborts with the
exception text. -/
def pieceArgs (P : ExprParser) : List (List Char) → Except (List Char) PieceList
  | [] => .ok .nil
  | seg :: rest =>
    if seg.contains ',' then
      match P (stripChars (splitFirst ',' seg).1) with
      | .error e => .error e
      | .ok ex =>
        match P (stripChars (splitFirst ',' seg).2) with
        | .error e => .error e
        | .ok cond =>
          match pieceArgs P rest with
          | .error e => .error e
          | .ok args => .ok (.cons ex cond args)
    else pieceArgs P rest

/-- The per-part failure message of parser.py line 232, with the exception
text appended. -/
def mkParseErr (part e : List Char) : List Char :=
  "Не удалось разобрать формулу '".toList ++ part ++ "': ".toList ++ e

/-- Handling of one nonempty, already restored, stripped and head-stripped
part (parser.py lines 201-232): a brace block with at least one parsed branch
becomes a piecewise expression; a brace block with no parsed branch falls
through to standard parsing of the whole part, as does every other part; a
parse failure carries the per-part message. -/
def parsePart (P : ExprParser) (p : List Char) : Except (List Char) SymExpr :=
  if p.head? == some '\x7b' && p.getLast? == some '\x7d' then
    match pieceArgs P (splitOnStr PLACEHOLDER p.tail.dropLast) with
    | .error e => .error (mkParseErr p e)
    | .ok .nil =>
      match P p with
      | .error e => .error (mkParseErr p e)
      | .ok e => .ok e
    | .ok args => .ok (.piecewise args)
  else
    match P p with
    | .error e => .error (mkParseErr p e)
    | .ok e => .ok e

/-- Model of the part loop of parse_multiple_functions (parser.py
lines 192-237): restore the placeholder, strip, skip empty parts, remove a
leading function head, handle the part, and stop at the first failure. -/
def parts_loop (P : ExprParser) : List (List Char) → List SymExpr → ParsedRequest
  | [], functions =>
    if functions.isEmpty then .error "Введите формулу.".toList else .function functions
  | rawPart :: rest, functions =>
    if (stripChars (restorePH rawPart)).isEmpty then parts_loop P rest functions
    else
      match parsePart P (stripLeadYEq (stripChars (restorePH rawPart))) with
      | .error m => .error m
      | .ok e => parts_loop P rest (functions ++ [e])

/-- Model of parse_multiple_functions (parser.py lines 176-237). -/
def parse_multiple_functions (P : ExprParser) (text : List Char) : ParsedRequest :=
  parts_loop P (List.splitOn ';' (protectBraces text)) []

/-- The right-hand side of the first equals sign of a parametric clause
(p.split with maxsplit one on the equals sign, then strip). -/
def eqTail (p : List Char) : List Char :=
  stripChars ((p.dropWhile (fun c => c ≠ '=')).tail)

/-- One step of the clause loop of parser.py lines 75-81: a clause starting
with an x assignment sets the x side, otherwise one starting with a y
assignment sets the y side. -/
def xyStep (acc : Option (List Char) × Option (List Char)) (q : List Char) :
    Option (List Char) × Option (List Char) :=
  if assignAt 'x' (stripChars q) then (some (eqTail (stripChars q)), acc.2)
  else if assignAt 'y' (stripChars q) then (acc.1, some (eqTail (stripChars q)))
  else acc

/-- Model of parse_input (parser.py lines 38-87): normalize, then dispatch in
order to geometry, 3-D, polar, parametric, and finally the multi-function
fallback. -/
def parse_input_normalized (P : ExprParser) (text : List Char) : ParsedRequest :=
  match findKeyword text with
  | some shape => parse_geometry text shape
  | none =>
    if containsAssign 'z' text then
      parse_3d P (stripChars (afterAssign 'z' text))
    else if containsAssign 'r' text then
      parse_polar P (stripChars (afterAssign 'r' text))
    else if containsAssign 'x' text && containsAssign 'y' text then
      if 2 ≤ (List.splitOnP (fun c => c = ';' || c = ',') text).length then
        match (List.splitOnP (fun c => c = ';' || c = ',') text).foldl xyStep (none, none) with
        | (some xs, some ys) =>
          if xs.isEmpty || ys.isEmpty then parse_multiple_functions P text
          else parse_parametric P xs ys
        | _ => parse_multiple_functions P text
      else parse_multiple_functions P text
    else parse_multiple_functions P text

/-- Model of parse_input (parser.py line 38-87): normalize, then dispatch. -/
def parse_input (P : ExprParser) (raw : List Char) : ParsedRequest :=
  parse_input_normalized P (preprocess_input raw)

/-- The steepness test of clean_data_for_plot (visualizer.py lines 35-42):
the absolute forward-difference slope between two consecutive samples exceeds
the threshold. -/
def steep (thr : ℚ) (p q : ℚ × ℚ) : Prop :=
  thr < |(q.2 - p.2) / (q.1 - p.1)|

instance (thr : ℚ) (p q : ℚ × ℚ) : Decidable (steep thr p q) :=
  inferInstanceAs (Decidable (thr < _))

/-- Model of clean_data_for_plot (visualizer.py lines 24-58) on real-valued
finite samples, which floats model as exact rationals: every sample is kept in
order, and a gap marker (the inserted NaN pair, modelled as none) is placed
between two consecutive samples exactly when the slope test fires.  The
complex-to-NaN replacement of lines 30-32 is vacuous on real-valued input. -/
def clean_data_for_plot (thr : ℚ) : List (ℚ × ℚ) → List (Option (ℚ × ℚ))
  | [] => []
  | [p] => [some p]
  | p :: q :: rest =>
    some p ::
      (if steep thr p q then (none : Option (ℚ × ℚ)) :: clean_data_for_plot thr (q :: rest)
       else clean_data_for_plot thr (q :: rest))

/-- Run counter: the number of maximal contiguous blocks of kept samples,
the polyline runs that matplotlib draws between NaN breaks. -/
def runCountAux {α : Type} : Bool → List (Option α) → Nat
  | _, [] => 0
  | _, none :: rest => runCountAux false rest
  | inRun, some _ :: rest => (if inRun then 0 else 1) + runCountAux true rest

/-- Number of maximal contiguous runs of kept samples. -/
def runCount {α : Type} (l : List (Option α)) : Nat := runCountAux false l

/-- The i-th abscissa of np.linspace(-10, 10, 1000) (visualizer.py line 64):
evenly spaced with step 20/999, modelled exactly. -/
def sampleX (i : ℕ) : ℚ := -10 + 20 * (i : ℚ) / 999

/-- The sample sequence of the function one over x on the default domain:
the lambdified expression evaluated at every linspace point
(visualizer.py lines 72-76).  No abscissa is zero, so every sample is a real
finite value. -/
def oneOverXSamples : List (ℚ × ℚ) :=
  (List.range 1000).map (fun i => (sampleX i, 1 / sampleX i))

/-- The triangle shape of geometry.py lines 31-69. -/
structure TriangleShape where
  a : ℚ
  b : ℚ
  c : ℚ
deriving DecidableEq

/-- A numpy scalar as it appears in the triangle vertex computation: an exact
rational, the nonnegative square root of a rational, or NaN. -/
inductive NpVal where
  | q : ℚ → NpVal
  | sqrtv : ℚ → NpVal
  | nan : NpVal
deriving DecidableEq

/-- Observable outcome of TriangleShape.plot: whether a Polygon patch was
added to the axes, and with which vertices. -/
structure TrianglePlotResult where
  patchAdded : Bool
  vertices : List (NpVal × NpVal)
deriving DecidableEq

/-- The law-of-cosines arccos argument of geometry.py line 47.  The model
presumes the sides make the denominator nonzero (a zero side would raise a
ZeroDivisionError in Python, outside every claim's scope). -/
def TriangleShape.cosC (t : TriangleShape) : ℚ :=
  (t.a ^ 2 + t.b ^ 2 - t.c ^ 2) / (2 * t.a * t.b)

/-- Model of TriangleShape.plot (geometry.py lines 37-62).  np.arccos of an
argument outside the interval from minus one to one returns NaN with a
RuntimeWarning rather than raising, so the except ValueError branch of
lines 60-62 never runs and the Polygon patch is added in every case; with the
argument in range, cx equals b times the argument and cy equals the
nonnegative square root of b squared times one minus its square. -/
def TriangleShape.plot (t : TriangleShape) : TrianglePlotResult :=
  if -1 ≤ t.cosC ∧ t.cosC ≤ 1 then
    { patchAdded := true,
      vertices := [(.q 0, .q 0), (.q t.a, .q 0),
                   (.q (t.b * t.cosC), .sqrtv (t.b ^ 2 * (1 - t.cosC ^ 2)))] }
  else
    { patchAdded := true,
      vertices := [(.q 0, .q 0), (.q t.a, .q 0), (.nan, .nan)] }

/-- Heron's intermediate s of TriangleShape.get_details (geometry.py line 66). -/
def TriangleShape.heron_s (t : TriangleShape) : ℚ := (t.a + t.b + t.c) / 2

/-- The radicand of Heron's formula in TriangleShape.get_details
(geometry.py line 67); the reported area is np.sqrt of this value. -/
def TriangleShape.area_sq (t : TriangleShape) : ℚ :=
  t.heron_s * (t.heron_s - t.a) * (t.heron_s - t.b) * (t.heron_s - t.c)

/-- The perimeter of TriangleShape.get_details (geometry.py line 68). -/
def TriangleShape.perimeter (t : TriangleShape) : ℚ := t.a + t.b + t.c

/-- A parser accepting every string, used to instantiate theorems that are
generic in the expression parser. -/
def atomParser : ExprParser := fun s => .ok (.atom s)

/-- A parser obeying the specification's expression grammar constraints that
matter here: a string containing a semicolon or a brace is not an expression
of the grammar of section 4.2 and is rejected. -/
def specRejectParser : ExprParser := fun s =>
  if s.contains ';' || s.contains '\x7b' then .error "invalid syntax".toList
  else .ok (.atom s)

/-! Fuel irrelevance and the natural recurrences of the fuel-indexed
workers. -/

theorem replaceAllGo_fuel (old new : List Char) :
    ∀ f₁ f₂ s, s.length ≤ f₁ → s.length ≤ f₂ →
      replaceAllGo old new f₁ s = replaceAllGo old new f₂ s := by
  intro f₁
  induction f₁ with
  | zero =>
    intro f₂ s h₁ _
    have hs : s = [] := List.length_eq_zero.mp (Nat.le_zero.mp h₁)
    subst hs
    cases f₂ <;> rfl
  | succ f ih =>
    intro f₂ s h₁ h₂
    cases s with
    | nil => cases f₂ <;> rfl
    | cons c rest =>
      cases f₂ with
      | zero => simp at h₂
      | succ g =>
        simp only [replaceAllGo]
        split
        · next h =>
          have hlen : ((c :: rest).drop old.length).length ≤ f := by
            rw [List.length_drop]
            cases old with
            | nil => exact absurd rfl h.1
            | cons o os => simp at h₁ ⊢; omega
          have hlen' : ((c :: rest).drop old.length).length ≤ g := by
            rw [List.length_drop]
            cases old with
            | nil => exact absurd rfl h.1
            | cons o os => simp at h₂ ⊢; omega
          rw [ih _ _ hlen hlen']
        · have hr : rest.length ≤ f := by simp at h₁; omega
          have hr' : rest.length ≤ g := by simp at h₂; omega
          rw [ih _ _ hr hr']

theorem replaceAll_nil (old new : List Char) : replaceAll old new [] = [] := rfl

theorem replaceAll_cons (old new : List Char) (c : Char) (rest : List Char) :
    replaceAll old new (c :: rest) =
      if old ≠ [] ∧ old.isPrefixOf (c :: rest) then
        new ++ replaceAll old new ((c :: rest).drop old.length)
      else c :: replaceAll old new rest := by
  have base : ∀ u : List Char, replaceAllGo old new u.length u = replaceAll old new u :=
    fun _ => rfl
  show replaceAllGo old new (rest.length + 1) (c :: rest) = _
  rw [replaceAllGo]
  by_cases h : old ≠ [] ∧ old.isPrefixOf (c :: rest)
  · rw [if_pos h, if_pos h]
    have hlen : ((c :: rest).drop old.length).length ≤ rest.length := by
      rw [List.length_drop]
      cases old with
      | nil => exact absurd rfl h.1
      | cons o os => simp only [List.length_cons]; omega
    rw [replaceAllGo_fuel old new rest.length _ _ hlen (Nat.le_refl _), base]
  · rw [if_neg h, if_neg h, base]

theorem absBarsGo_fuel :
    ∀ f₁ f₂ s, s.length ≤ f₁ → s.length ≤ f₂ →
      absBarsGo f₁ s = absBarsGo f₂ s := by
  intro f₁
  induction f₁ with
  | zero =>
    intro f₂ s h₁ _
    have hs : s = [] := List.length_eq_zero.mp (Nat.le_zero.mp h₁)
    subst hs
    cases f₂ <;> rfl
  | succ f ih =>
    intro f₂ s h₁ h₂
    cases s with
    | nil => cases f₂ <;> rfl
    | cons c rest =>
      cases f₂ with
      | zero => simp at h₂
      | succ g =>
        simp only [absBarsGo]
        have hdrop : (rest.dropWhile (fun x => x ≠ '|')).length ≤ rest.length :=
          (List.dropWhile_sublist _).length_le
        split
        · split
          · next h =>
            have htl : (rest.dropWhile (fun x => x ≠ '|')).tail.length ≤ rest.length - 1 := by
              cases hp : rest.dropWhile (fun x => x ≠ '|') with
              | nil => exact absurd hp h.2
              | cons a as => rw [hp, List.length_cons] at hdrop; simp; omega
            have h₁' : (rest.dropWhile (fun x => x ≠ '|')).tail.length ≤ f := by
              simp at h₁; omega
            have h₂' : (rest.dropWhile (fun x => x ≠ '|')).tail.length ≤ g := by
              simp at h₂; omega
            rw [ih _ _ h₁' h₂']
          · have h₁' : rest.length ≤ f := by simp at h₁; omega
            have h₂' : rest.length ≤ g := by simp at h₂; omega
            rw [ih _ _ h₁' h₂']
        · have h₁' : rest.length ≤ f := by simp at h₁; omega
          have h₂' : rest.length ≤ g := by simp at h₂; omega
          rw [ih _ _ h₁' h₂']

theorem absBars_nil : absBars [] = [] := rfl

theorem absBars_cons (c : Char) (rest : List Char) :
    absBars (c :: rest) =
      if c = '|' then
        if rest.takeWhile (fun x => x ≠ '|') ≠ [] ∧ rest.dropWhile (fun x => x ≠ '|') ≠ [] then
          ('a' :: 'b' :: 's' :: '(' :: rest.takeWhile (fun x => x ≠ '|') ++ [')']) ++
            absBars (rest.dropWhile (fun x => x ≠ '|')).tail
        else c :: absBars rest
      else c :: absBars rest := by
  have base : ∀ u : List Char, absBarsGo u.length u = absBars u := fun _ => rfl
  show absBarsGo (rest.length + 1) (c :: rest) = _
  rw [absBarsGo]
  have hdrop : (rest.dropWhile (fun x => x ≠ '|')).length ≤ rest.length :=
    (List.dropWhile_sublist _).length_le
  by_cases hc : c = '|'
  · rw [if_pos hc, if_pos hc]
    by_cases h : rest.takeWhile (fun x => x ≠ '|') ≠ [] ∧ rest.dropWhile (fun x => x ≠ '|') ≠ []
    · rw [if_pos h, if_pos h]
      have htl : (rest.dropWhile (fun x => x ≠ '|')).tail.length ≤ rest.length := by
        cases hp : rest.dropWhile (fun x => x ≠ '|') with
        | nil => exact absurd hp h.2
        | cons a as => rw [hp, List.length_cons] at hdrop; simp; omega
      rw [absBarsGo_fuel rest.length _ _ htl (Nat.le_refl _), base]
    · rw [if_neg h, if_neg h, base]
  · rw [if_neg hc, if_neg hc, base]

theorem protectBracesGo_fuel :
    ∀ f₁ f₂ s, s.length ≤ f₁ → s.length ≤ f₂ →
      protectBracesGo f₁ s = protectBracesGo f₂ s := by
  intro f₁
  induction f₁ with
  | zero =>
    intro f₂ s h₁ _
    have hs : s = [] := List.length_eq_zero.mp (Nat.le_zero.mp h₁)
    subst hs
    cases f₂ <;> rfl
  | succ f ih =>
    intro f₂ s h₁ h₂
    cases s with
    | nil => cases f₂ <;> rfl
    | cons c rest =>
      cases f₂ with
      | zero => simp at h₂
      | succ g =>
        simp only [protectBracesGo]
        have hdrop : (rest.dropWhile (fun x => x ≠ '\x7d')).length ≤ rest.length :=
          (List.dropWhile_sublist _).length_le
        split
        · split
          · next h =>
            have htl : (rest.dropWhile (fun x => x ≠ '\x7d')).tail.length ≤ rest.length - 1 := by
              cases hp : rest.dropWhile (fun x => x ≠ '\x7d') with
              | nil => exact absurd hp h
              | cons a as => rw [hp, List.length_cons] at hdrop; simp; omega
            have h₁' : (rest.dropWhile (fun x => x ≠ '\x7d')).tail.length ≤ f := by
              simp at h₁; omega
            have h₂' : (rest.dropWhile (fun x => x ≠ '\x7d')).tail.length ≤ g := by
              simp at h₂; omega
            rw [ih _ _ h₁' h₂']
          · have h₁' : rest.length ≤ f := by simp at h₁; omega
            have h₂' : rest.length ≤ g := by simp at h₂; omega
            rw [ih _ _ h₁' h₂']
        · have h₁' : rest.length ≤ f := by simp at h₁; omega
          have h₂' : rest.length ≤ g := by simp at h₂; omega
          rw [ih _ _ h₁' h₂']

theorem protectBraces_cons (c : Char) (rest : List Char) :
    protectBraces (c :: rest) =
      if c = '\x7b' then
        if rest.dropWhile (fun x => x ≠ '\x7d') ≠ [] then
          '\x7b' :: (replaceAll [';'] PLACEHOLDER (rest.takeWhile (fun x => x ≠ '\x7d')) ++
            '\x7d' :: protectBraces (rest.dropWhile (fun x => x ≠ '\x7d')).tail)
        else c :: protectBraces rest
      else c :: protectBraces rest := by
  have base : ∀ u : List Char, protectBracesGo u.length u = protectBraces u := fun _ => rfl
  show protectBracesGo (rest.length + 1) (c :: rest) = _
  rw [protectBracesGo]
  have hdrop : (rest.dropWhile (fun x => x ≠ '\x7d')).length ≤ rest.length :=
    (List.dropWhile_sublist _).length_le
  by_cases hc : c = '\x7b'
  · rw [if_pos hc, if_pos hc]
    by_cases h : rest.dropWhile (fun x => x ≠ '\x7d') ≠ []
    · rw [if_pos h, if_pos h]
      have htl : (rest.dropWhile (fun x => x ≠ '\x7d')).tail.length ≤ rest.length := by
        cases hp : rest.dropWhile (fun x => x ≠ '\x7d') with
        | nil => exact absurd hp h
        | cons a as => rw [hp, List.length_cons] at hdrop; simp; omega
      rw [protectBracesGo_fuel rest.length _ _ htl (Nat.le_refl _), base]
    · rw [if_neg h, if_neg h, base]
  · rw [if_neg hc, if_neg hc, base]

theorem splitOnStrGo_fuel (sep : List Char) :
    ∀ f₁ f₂ s, s.length ≤ f₁ → s.length ≤ f₂ →
      splitOnStrGo sep f₁ s = splitOnStrGo sep f₂ s := by
  intro f₁
  induction f₁ with
  | zero =>
    intro f₂ s h₁ _
    have hs : s = [] := List.length_eq_zero.mp (Nat.le_zero.mp h₁)
    subst hs
    cases f₂ <;> rfl
  | succ f ih =>
    intro f₂ s h₁ h₂
    cases s with
    | nil => cases f₂ <;> rfl
    | cons c rest =>
      cases f₂ with
      | zero => simp at h₂
      | succ g =>
        simp only [splitOnStrGo]
        split
        · next h =>
          have hlen : ((c :: rest).drop sep.length).length ≤ f := by
            rw [List.length_drop]
            cases sep with
            | nil => exact absurd rfl h.1
            | cons o os => simp at h₁ ⊢; omega
          have hlen' : ((c :: rest).drop sep.length).length ≤ g := by
            rw [List.length_drop]
            cases sep with
            | nil => exact absurd rfl h.1
            | cons o os => simp at h₂ ⊢; omega
          rw [ih _ _ hlen hlen']
        · have hr : rest.length ≤ f := by simp at h₁; omega
          have hr' : rest.length ≤ g := by simp at h₂; omega
          rw [ih _ _ hr hr']

theorem splitOnStr_cons (sep : List Char) (c : Char) (rest : List Char) :
    splitOnStr sep (c :: rest) =
      if sep ≠ [] ∧ sep.isPrefixOf (c :: rest) then
        [] :: splitOnStr sep ((c :: rest).drop sep.length)
      else
        match splitOnStr sep rest with
        | [] => [[c]]
        | h :: t => (c :: h) :: t := by
  have base : ∀ u : List Char, splitOnStrGo sep u.length u = splitOnStr sep u := fun _ => rfl
  show splitOnStrGo sep (rest.length + 1) (c :: rest) = _
  rw [splitOnStrGo]
  by_cases h : sep ≠ [] ∧ sep.isPrefixOf (c :: rest)
  · rw [if_pos h, if_pos h]
    have hlen : ((c :: rest).drop sep.length).length ≤ rest.length := by
      rw [List.length_drop]
      cases sep with
      | nil => exact absurd rfl h.1
      | cons o os => simp only [List.length_cons]; omega
    rw [splitOnStrGo_fuel sep rest.length _ _ hlen (Nat.le_refl _), base]
  · rw [if_neg h, if_neg h, base]

/-- Claim C2: the normalization is claimed to turn every occurrence of each
Cyrillic function token into its canonical name, in particular косинус into
cos.  In the code the replacement for синус runs first and consumes the inner
substring of косинус, so normalizing косинус(x) yields коsin(x) and the text
cos never appears: the entry for косинус in FUNCTION_MAPPINGS is dead. -/
theorem C2_cyrillic_cosine_bug :
    preprocess_input "косинус(x)".toList = "коsin(x)".toList ∧
      occurs "cos".toList (preprocess_input "косинус(x)".toList) = false := by
  decide

/-- Claim C9 counterexample: normalization is not idempotent.  On the input
of doubled bars around x, one pass produces a bar, abs of x and a bar, and a
second pass rewrites that leftover bar pair again. -/
theorem C9_idempotence_counterexample :
    preprocess_input (preprocess_input "||x||".toList) ≠
      preprocess_input "||x||".toList := by
  decide

/-- Claim C5 counterexample: two rectangle requests, one missing the height
and one missing the width, produce the identical error message, so the
message does not name which specific parameter is missing. -/
theorem C5_same_message_counterexample :
    parse_input atomParser "прямоугольник a=5".toList =
        .error "Укажите стороны, например: прямоугольник a=5 b=3".toList ∧
      parse_input atomParser "прямоугольник b=5".toList =
        .error "Укажите стороны, например: прямоугольник a=5 b=3".toList := by
  decide

/-- Claim C1 counterexample: an input containing a top-level z assignment but
starting with a geometry keyword classifies as Geometry, not Surface3D,
because the geometry keyword check precedes the z assignment check. -/
theorem C1_geometry_precedes_counterexample :
    containsAssign 'z' (preprocess_input "треугольник z=1 a=3 b=4 c=5".toList) = true ∧
      parse_input atomParser "треугольник z=1 a=3 b=4 c=5".toList =
        .geometry (.triangle 3 4 5) := by
  decide

/-- Claim C8: for the triangle with sides three, four and five, the metrics of
TriangleShape.get_details are exactly area six (the square root of Heron's
radicand) and perimeter twelve. -/
theorem C8_heron_345 :
    Real.sqrt ((TriangleShape.area_sq ⟨3, 4, 5⟩ : ℚ) : ℝ) = 6 ∧
      TriangleShape.perimeter ⟨3, 4, 5⟩ = 12 := by
  constructor
  · have h : (TriangleShape.area_sq ⟨3, 4, 5⟩ : ℚ) = 36 := by
      norm_num [TriangleShape.area_sq, TriangleShape.heron_s]
    rw [h, show (((36 : ℚ) : ℝ)) = 6 ^ 2 by norm_num, Real.sqrt_sq (by norm_num)]
  · norm_num [TriangleShape.perimeter]

/-- Claim C6: for sides one, one and ten the triangle inequality fails and the
arccos argument is below minus one; the code then still adds a Polygon patch,
with the third vertex NaN, instead of omitting the plot geometry — np.arccos
returns NaN rather than raising the ValueError the code tries to catch.  The
computation is total: no exception escapes. -/
theorem C6_degenerate_triangle_patch :
    TriangleShape.cosC ⟨1, 1, 10⟩ < -1 ∧
      TriangleShape.plot ⟨1, 1, 10⟩ =
        { patchAdded := true,
          vertices := [(.q 0, .q 0), (.q 1, .q 0), (.nan, .nan)] } := by
  have h : TriangleShape.cosC ⟨1, 1, 10⟩ = -49 := by
    norm_num [TriangleShape.cosC]
  constructor
  · rw [h]; norm_num
  · rw [TriangleShape.plot, if_neg]
    rw [h]; norm_num

/-! Helper lemmas about the classifier's branches. -/

theorem parse_geometry_ne_parametric (t : List Char) (s : GeoShape) (x y : SymExpr)
    (raw : List Char) : parse_geometry t s ≠ .parametric x y raw := by
  cases s <;> unfold parse_geometry <;> (repeat' split) <;> simp

theorem parse_3d_ne_parametric (P : ExprParser) (z : List Char) (x y : SymExpr)
    (raw : List Char) : parse_3d P z ≠ .parametric x y raw := by
  unfold parse_3d
  split <;> simp

theorem parse_polar_ne_parametric (P : ExprParser) (r : List Char) (x y : SymExpr)
    (raw : List Char) : parse_polar P r ≠ .parametric x y raw := by
  unfold parse_polar
  split <;> simp

theorem parts_loop_shape (P : ExprParser) :
    ∀ (parts : List (List Char)) (acc : List SymExpr),
      (∃ l, parts_loop P parts acc = .function l) ∨
        (∃ m, parts_loop P parts acc = .error m) := by
  intro parts
  induction parts with
  | nil =>
    intro acc
    unfold parts_loop
    split
    · right; exact ⟨_, rfl⟩
    · left; exact ⟨_, rfl⟩
  | cons p rest ih =>
    intro acc
    unfold parts_loop
    split
    · exact ih acc
    · split
      · right; exact ⟨_, rfl⟩
      · exact ih _

theorem parse_multiple_functions_ne_parametric (P : ExprParser) (t : List Char)
    (x y : SymExpr) (raw : List Char) :
    parse_multiple_functions P t ≠ .parametric x y raw := by
  unfold parse_multiple_functions
  rcases parts_loop_shape P (List.splitOn ';' (protectBraces t)) [] with ⟨l, hl⟩ | ⟨m, hm⟩
  · rw [hl]; simp
  · rw [hm]; simp

theorem xyFold_x (parts : List (List Char)) :
    ∀ acc : Option (List Char) × Option (List Char),
      (parts.foldl xyStep acc).1.isSome →
      acc.1.isSome ∨ ∃ p ∈ parts, assignAt 'x' (stripChars p) = true := by
  induction parts with
  | nil => intro acc h; exact Or.inl h
  | cons q rest ih =>
    intro acc h
    rw [List.foldl_cons] at h
    rcases ih (xyStep acc q) h with h1 | ⟨p, hp, hx⟩
    · by_cases hq : assignAt 'x' (stripChars q) = true
      · exact Or.inr ⟨q, List.mem_cons_self q rest, hq⟩
      · have h2 : (xyStep acc q).1 = acc.1 := by
          unfold xyStep
          rw [if_neg hq]
          by_cases hy : assignAt 'y' (stripChars q) = true
          · rw [if_pos hy]
          · rw [if_neg hy]
        rw [h2] at h1
        exact Or.inl h1
    · exact Or.inr ⟨p, List.mem_cons_of_mem q hp, hx⟩

theorem xyFold_y (parts : List (List Char)) :
    ∀ acc : Option (List Char) × Option (List Char),
      (parts.foldl xyStep acc).2.isSome →
      acc.2.isSome ∨ ∃ p ∈ parts, assignAt 'y' (stripChars p) = true := by
  induction parts with
  | nil => intro acc h; exact Or.inl h
  | cons q rest ih =>
    intro acc h
    rw [List.foldl_cons] at h
    rcases ih (xyStep acc q) h with h1 | ⟨p, hp, hy⟩
    · by_cases hq : assignAt 'y' (stripChars q) = true
      · exact Or.inr ⟨q, List.mem_cons_self q rest, hq⟩
      · have h2 : (xyStep acc q).2 = acc.2 := by
          unfold xyStep
          by_cases hx : assignAt 'x' (stripChars q) = true
          · rw [if_pos hx]
          · rw [if_neg hx, if_neg hq]
        rw [h2] at h1
        exact Or.inl h1
    · exact Or.inr ⟨p, List.mem_cons_of_mem q hp, hy⟩

/-- Claim C10: when after splitting on top-level semicolons every clause is
empty or whitespace, the Cartesian-function fallback returns the dedicated
error, never a Function with an empty curve list. -/
theorem C10_empty_clauses_error (P : ExprParser) (text : List Char)
    (h : ∀ part ∈ List.splitOn ';' (protectBraces text), stripChars (restorePH part) = []) :
    parse_multiple_functions P text = .error "Введите формулу.".toList := by
  unfold parse_multiple_functions
  generalize hg : List.splitOn ';' (protectBraces text) = parts at h
  clear hg
  induction parts with
  | nil => rfl
  | cons p rest ih =>
    have hp : stripChars (restorePH p) = [] := h p (List.mem_cons_self p rest)
    unfold parts_loop
    rw [hp]
    simp only [List.isEmpty_nil, if_true]
    exact ih fun q hq => h q (List.mem_cons_of_mem p hq)

/-- Witness for claim C10 at a concrete whitespace-and-semicolons input. -/
theorem C10_empty_clauses_error_witness :
    parse_multiple_functions atomParser " ;  ; ".toList =
      .error "Введите формулу.".toList :=
  C10_empty_clauses_error atomParser _ (by decide)

/-- Claim C7: the parametric example classifies as Parametric, the plain
function example falls through to Function, and in general a Parametric result
is returned only when, after splitting the normalized text on semicolons and
commas, some clause starts with an x assignment and some clause starts with a
y assignment. -/
theorem C7_parametric_cooccurrence :
    (∀ (P : ExprParser) (e₁ e₂ : SymExpr),
        P "cos(t)".toList = .ok e₁ → P "sin(t)".toList = .ok e₂ →
          parse_input P "x = cos(t), y = sin(t)".toList =
            .parametric e₁ e₂ "x=cos(t), y=sin(t)".toList) ∧
    (∀ (P : ExprParser) (e : SymExpr),
        P "x + 1".toList = .ok e →
          parse_input P "y = x + 1".toList = .function [e]) ∧
    (∀ (P : ExprParser) (raw : List Char) (x y : SymExpr) (rw₀ : List Char),
        parse_input P raw = .parametric x y rw₀ →
          (∃ p ∈ List.splitOnP (fun c => c = ';' || c = ',') (preprocess_input raw),
            assignAt 'x' (stripChars p) = true) ∧
          (∃ q ∈ List.splitOnP (fun c => c = ';' || c = ',') (preprocess_input raw),
            assignAt 'y' (stripChars q) = true)) := by
  refine ⟨?_, ?_, ?_⟩
  · intro P e₁ e₂ h1 h2
    have hr : parse_input P "x = cos(t), y = sin(t)".toList =
        parse_parametric P "cos(t)".toList "sin(t)".toList := rfl
    rw [hr]
    unfold parse_parametric
    rw [h1, h2]
    rfl
  · intro P e h
    have hr : parse_input P "y = x + 1".toList =
        (match parsePart P "x + 1".toList with
         | .error m => (.error m : ParsedRequest)
         | .ok ex => parts_loop P [] [ex]) := rfl
    have hp : parsePart P "x + 1".toList =
        (match P "x + 1".toList with
         | .error er => .error (mkParseErr "x + 1".toList er)
         | .ok ex => .ok ex) := rfl
    rw [hr, hp, h]
    rfl
  · intro P raw x y rw₀ h
    unfold parse_input parse_input_normalized at h
    cases hk : findKeyword (preprocess_input raw) with
    | some s =>
      rw [hk] at h
      exact absurd h (parse_geometry_ne_parametric _ _ _ _ _)
    | none =>
      rw [hk] at h
      by_cases hz : containsAssign 'z' (preprocess_input raw) = true
      · rw [if_pos hz] at h
        exact absurd h (parse_3d_ne_parametric _ _ _ _ _)
      · rw [if_neg hz] at h
        by_cases hrr : containsAssign 'r' (preprocess_input raw) = true
        · rw [if_pos hrr] at h
          exact absurd h (parse_polar_ne_parametric _ _ _ _ _)
        · rw [if_neg hrr] at h
          by_cases hxy : (containsAssign 'x' (preprocess_input raw) &&
              containsAssign 'y' (preprocess_input raw)) = true
          · rw [if_pos hxy] at h
            by_cases hlen :
                2 ≤ (List.splitOnP (fun c => c = ';' || c = ',') (preprocess_input raw)).length
            · rw [if_pos hlen] at h
              cases hfold : (List.splitOnP (fun c => c = ';' || c = ',')
                  (preprocess_input raw)).foldl xyStep (none, none) with
              | mk xs? ys? =>
                rw [hfold] at h
                cases xs? with
                | none =>
                  exact absurd h (parse_multiple_functions_ne_parametric _ _ _ _ _)
                | some xs =>
                  cases ys? with
                  | none =>
                    exact absurd h (parse_multiple_functions_ne_parametric _ _ _ _ _)
                  | some ys =>
                    constructor
                    · have hx : ((List.splitOnP (fun c => c = ';' || c = ',')
                          (preprocess_input raw)).foldl xyStep (none, none)).1.isSome = true := by
                        rw [hfold]
                        rfl
                      rcases xyFold_x _ _ hx with habs | hgood
                      · simp at habs
                      · exact hgood
                    · have hy : ((List.splitOnP (fun c => c = ';' || c = ',')
                          (preprocess_input raw)).foldl xyStep (none, none)).2.isSome = true := by
                        rw [hfold]
                        rfl
                      rcases xyFold_y _ _ hy with habs | hgood
                      · simp at habs
                      · exact hgood
            · rw [if_neg hlen] at h
              exact absurd h (parse_multiple_functions_ne_parametric _ _ _ _ _)
          · rw [if_neg hxy] at h
            exact absurd h (parse_multiple_functions_ne_parametric _ _ _ _ _)

/-- Witness for claim C7, instantiating the parser. -/
theorem C7_parametric_cooccurrence_witness :
    parse_input atomParser "x = cos(t), y = sin(t)".toList =
        .parametric (.atom "cos(t)".toList) (.atom "sin(t)".toList)
          "x=cos(t), y=sin(t)".toList ∧
      parse_input atomParser "y = x + 1".toList = .function [.atom "x + 1".toList] :=
  ⟨C7_parametric_cooccurrence.1 atomParser _ _ rfl rfl,
   C7_parametric_cooccurrence.2.1 atomParser _ rfl⟩

/-- Claim C1 amended: when the normalized text does not start with a geometry
keyword and contains a top-level z assignment, classification dispatches to
the 3-D branch (Surface3D on parse success, that branch's error otherwise)
and never returns Parametric. -/
theorem C1_z_dispatch (P : ExprParser) (raw : List Char)
    (hk : findKeyword (preprocess_input raw) = none)
    (hz : containsAssign 'z' (preprocess_input raw) = true) :
    parse_input P raw = parse_3d P (stripChars (afterAssign 'z' (preprocess_input raw))) ∧
      ∀ x y rw₀, parse_input P raw ≠ .parametric x y rw₀ := by
  have h1 : parse_input P raw =
      parse_3d P (stripChars (afterAssign 'z' (preprocess_input raw))) := by
    unfold parse_input parse_input_normalized
    rw [hk]
    rw [if_pos hz]
  refine ⟨h1, fun x y rw₀ => ?_⟩
  rw [h1]
  exact parse_3d_ne_parametric _ _ _ _ _

/-- Witness for claim C1's amended theorem at the specification's own
3-D example. -/
theorem C1_z_dispatch_witness :
    parse_input atomParser "z = x^2 + y^2".toList =
        parse_3d atomParser
          (stripChars (afterAssign 'z' (preprocess_input "z = x^2 + y^2".toList))) ∧
      ∀ x y rw₀, parse_input atomParser "z = x^2 + y^2".toList ≠ .parametric x y rw₀ :=
  C1_z_dispatch atomParser _ (by decide) (by decide)

/-- Claim C5 amended: a geometry request missing a required shape parameter
classifies as an Error carrying that shape's fixed localized message asking
for the required parameters (the same message whichever parameter is absent),
and never substitutes a default value. -/
theorem C5_missing_parameter_error (P : ExprParser) (raw : List Char) :
    (findKeyword (preprocess_input raw) = some .rectangle →
      (matchNumAfterKeys ["a".toList, "width".toList, "ширина".toList]
          (preprocess_input raw) = none ∨
        matchNumAfterKeys ["b".toList, "height".toList, "высота".toList]
          (preprocess_input raw) = none) →
      parse_input P raw = .error "Укажите стороны, например: прямоугольник a=5 b=3".toList) ∧
    (findKeyword (preprocess_input raw) = some .circle →
      matchNumAfterKeys ["r".toList, "радиус".toList] (preprocess_input raw) = none →
      parse_input P raw = .error "Укажите радиус, например: круг r=5".toList) ∧
    (findKeyword (preprocess_input raw) = some .triangle →
      (matchNumAfterKeys ["a".toList] (preprocess_input raw) = none ∨
        matchNumAfterKeys ["b".toList] (preprocess_input raw) = none ∨
        matchNumAfterKeys ["c".toList] (preprocess_input raw) = none) →
      parse_input P raw =
        .error "Укажите стороны a, b, c, например: треугольник a=3 b=4 c=5".toList) ∧
    (findKeyword (preprocess_input raw) = some .ellipse →
      (matchNumAfterKeys ["a".toList] (preprocess_input raw) = none ∨
        matchNumAfterKeys ["b".toList] (preprocess_input raw) = none) →
      parse_input P raw = .error "Укажите полуоси a и b, например: эллипс a=4 b=2".toList) := by
  refine ⟨?_, ?_, ?_, ?_⟩
  · intro hk h
    unfold parse_input parse_input_normalized
    rw [hk]
    unfold parse_geometry
    rcases h with h | h
    · rw [h]
    · cases hA : matchNumAfterKeys ["a".toList, "width".toList, "ширина".toList]
          (preprocess_input raw) with
      | none => rfl
      | some a => rw [h]
  · intro hk h
    unfold parse_input parse_input_normalized
    rw [hk]
    unfold parse_geometry
    rw [h]
  · intro hk h
    unfold parse_input parse_input_normalized
    rw [hk]
    unfold parse_geometry
    rcases h with h | h | h
    · rw [h]
    · cases hA : matchNumAfterKeys ["a".toList] (preprocess_input raw) with
      | none => rfl
      | some a => rw [h]
    · cases hA : matchNumAfterKeys ["a".toList] (preprocess_input raw) with
      | none => rfl
      | some a =>
        cases hB : matchNumAfterKeys ["b".toList] (preprocess_input raw) with
        | none => rfl
        | some b => rw [h]
  · intro hk h
    unfold parse_input parse_input_normalized
    rw [hk]
    unfold parse_geometry
    rcases h with h | h
    · rw [h]
    · cases hA : matchNumAfterKeys ["a".toList] (preprocess_input raw) with
      | none => rfl
      | some a => rw [h]

/-- Witness for claim C5's amended theorem: a rectangle request with the
height omitted classifies as the fixed rectangle error. -/
theorem C5_missing_parameter_error_witness :
    parse_input atomParser "прямоугольник a=5".toList =
      .error "Укажите стороны, например: прямоугольник a=5 b=3".toList :=
  (C5_missing_parameter_error atomParser "прямоугольник a=5".toList).1
    (by decide) (Or.inr (by decide))

/-! Substring-occurrence lemmas for the replacement machinery. -/

theorem occurs_iff_infixOf (pat : List Char) : ∀ s, occurs pat s = true ↔ pat <:+: s := by
  intro s
  induction s with
  | nil =>
    simp only [occurs, List.isEmpty_iff, List.infix_nil]
  | cons c rest ih =>
    simp only [occurs, Bool.or_eq_true, List.isPrefixOf_iff_prefix, ih,
      List.infix_cons_iff]

theorem occurs_mono {pat l₁ l₂ : List Char} (hsub : l₁ <:+: l₂)
    (h : occurs pat l₁ = true) : occurs pat l₂ = true := by
  rw [occurs_iff_infixOf] at h ⊢
  exact h.trans hsub

theorem occurs_eq_false_mono {pat l₁ l₂ : List Char} (hsub : l₁ <:+: l₂)
    (h : occurs pat l₂ = false) : occurs pat l₁ = false := by
  cases hoc : occurs pat l₁ with
  | false => rfl
  | true => rw [occurs_mono hsub hoc] at h; exact h

theorem replaceAllGo_of_not_occurs (old new : List Char) :
    ∀ (fuel : Nat) (s : List Char), occurs old s = false →
      replaceAllGo old new fuel s = s := by
  intro fuel
  induction fuel with
  | zero => intro s _; rfl
  | succ f ih =>
    intro s h
    cases s with
    | nil => rfl
    | cons c rest =>
      simp only [occurs, Bool.or_eq_false_iff] at h
      rw [replaceAllGo, if_neg (fun hc => by rw [hc.2] at h; exact absurd h.1 (by simp)),
        ih rest h.2]

theorem replaceAll_of_not_occurs (old new s : List Char) (h : occurs old s = false) :
    replaceAll old new s = s :=
  replaceAllGo_of_not_occurs old new s.length s h

theorem mem_replaceAllGo (old new : List Char) :
    ∀ (fuel : Nat) (s : List Char) (a : Char),
      a ∈ replaceAllGo old new fuel s → a ∈ new ∨ a ∈ s := by
  intro fuel
  induction fuel with
  | zero => intro s a h; exact Or.inr h
  | succ f ih =>
    intro s a h
    cases s with
    | nil => exact absurd h (List.not_mem_nil a)
    | cons c rest =>
      rw [replaceAllGo] at h
      split at h
      · rcases List.mem_append.mp h with h1 | h1
        · exact Or.inl h1
        · rcases ih _ _ h1 with h2 | h2
          · exact Or.inl h2
          · exact Or.inr (List.drop_subset _ _ h2)
      · rcases List.mem_cons.mp h with h1 | h1
        · exact Or.inr (h1 ▸ List.mem_cons_self c rest)
        · rcases ih _ _ h1 with h2 | h2
          · exact Or.inl h2
          · exact Or.inr (List.mem_cons_of_mem c h2)

theorem mem_replaceAll (old new s : List Char) (a : Char)
    (h : a ∈ replaceAll old new s) : a ∈ new ∨ a ∈ s :=
  mem_replaceAllGo old new s.length s a h

theorem prefix_replaceAllGo (old new : List Char) (hnew : new ≠ []) :
    ∀ (fuel : Nat) (s o : List Char), o ≠ [] → (∀ c ∈ o, c ∉ new) →
      o <+: replaceAllGo old new fuel s → o <+: s := by
  intro fuel
  induction fuel with
  | zero => intro s o _ _ h; exact h
  | succ f ih =>
    intro s o ho hdisj h
    cases s with
    | nil =>
      cases o with
      | nil => exact absurd rfl ho
      | cons o0 os => exact absurd (List.prefix_nil.mp h) (by simp)
    | cons c rest =>
      by_cases hc : old ≠ [] ∧ old.isPrefixOf (c :: rest)
      · rw [replaceAllGo, if_pos hc] at h
        cases new with
        | nil => exact absurd rfl hnew
        | cons n ns =>
          cases o with
          | nil => exact absurd rfl ho
          | cons o0 os =>
            rw [List.cons_append, List.cons_prefix_cons] at h
            exact absurd (h.1 ▸ List.mem_cons_self n ns)
              (hdisj o0 (List.mem_cons_self o0 os))
      · rw [replaceAllGo, if_neg hc] at h
        cases o with
        | nil => exact absurd rfl ho
        | cons o0 os =>
          rw [List.cons_prefix_cons] at h
          rw [List.cons_prefix_cons]
          refine ⟨h.1, ?_⟩
          by_cases hos : os = []
          · subst hos; simp
          · exact ih rest os hos (fun d hd => hdisj d (List.mem_cons_of_mem o0 hd)) h.2

theorem occurs_across_disjoint (pat : List Char) (hpat : pat ≠ []) :
    ∀ (n r : List Char), (∀ c ∈ pat, c ∉ n) →
      occurs pat (n ++ r) = true → occurs pat r = true := by
  intro n
  induction n with
  | nil => intro r _ h; exact h
  | cons c ns ih =>
    intro r hdisj h
    rw [List.cons_append, occurs] at h
    rcases Bool.or_eq_true_iff.mp h with h1 | h1
    · rw [List.isPrefixOf_iff_prefix] at h1
      cases pat with
      | nil => exact absurd rfl hpat
      | cons p0 ps =>
        rw [List.cons_prefix_cons] at h1
        exact absurd (h1.1 ▸ List.mem_cons_self c ns)
          (hdisj p0 (List.mem_cons_self p0 ps))
    · exact ih r (fun d hd hdn => hdisj d hd (List.mem_cons_of_mem c hdn)) h1

theorem occurs_replaceAllGo_self (old new : List Char) (hold : old ≠ [])
    (hnew : new ≠ []) (hdisj : ∀ c ∈ old, c ∉ new) :
    ∀ (fuel : Nat) (s : List Char), s.length ≤ fuel →
      occurs old (replaceAllGo old new fuel s) = false := by
  intro fuel
  induction fuel with
  | zero =>
    intro s hlen
    have hs : s = [] := List.length_eq_zero.mp (Nat.le_zero.mp hlen)
    subst hs
    cases old with
    | nil => exact absurd rfl hold
    | cons o0 os => rfl
  | succ f ih =>
    intro s hlen
    cases s with
    | nil =>
      cases old with
      | nil => exact absurd rfl hold
      | cons o0 os => rfl
    | cons c rest =>
      by_cases hc : old ≠ [] ∧ old.isPrefixOf (c :: rest)
      · rw [replaceAllGo, if_pos hc]
        have hdlen : ((c :: rest).drop old.length).length ≤ f := by
          rw [List.length_drop]
          cases old with
          | nil => exact absurd rfl hold
          | cons o0 os => simp only [List.length_cons] at hlen ⊢; omega
        cases hoc : occurs old (new ++ replaceAllGo old new f ((c :: rest).drop old.length)) with
        | false => rfl
        | true =>
          have h2 := occurs_across_disjoint old hold new _ hdisj hoc
          rw [ih _ hdlen] at h2
          exact h2.symm
      · rw [replaceAllGo, if_neg hc, occurs]
        have hrest : rest.length ≤ f := by
          simp only [List.length_cons] at hlen; omega
        rw [ih rest hrest]
        simp only [Bool.or_false]
        cases hpre : old.isPrefixOf (c :: replaceAllGo old new f rest) with
        | false => rfl
        | true =>
          exfalso
          rw [List.isPrefixOf_iff_prefix] at hpre
          cases old with
          | nil => exact absurd rfl hold
          | cons o0 os =>
            rw [List.cons_prefix_cons] at hpre
            refine hc ⟨hold, ?_⟩
            rw [List.isPrefixOf_iff_prefix, List.cons_prefix_cons]
            refine ⟨hpre.1, ?_⟩
            by_cases hos : os = []
            · subst hos; simp
            · exact prefix_replaceAllGo (o0 :: os) new hnew f rest os hos
                (fun d hd => hdisj d (List.mem_cons_of_mem o0 hd)) hpre.2

theorem occurs_replaceAll_self (old new s : List Char) (hold : old ≠ [])
    (hnew : new ≠ []) (hdisj : ∀ c ∈ old, c ∉ new) :
    occurs old (replaceAll old new s) = false :=
  occurs_replaceAllGo_self old new hold hnew hdisj s.length s (Nat.le_refl _)

/-! Lemmas about stripping, membership and splitting, feeding the piecewise
claim. -/

theorem dropTrailingWs_cons (c : Char) (rest : List Char) :
    dropTrailingWs (c :: rest) =
      if (dropTrailingWs rest).isEmpty && isWs c then [] else c :: dropTrailingWs rest := rfl

theorem dropTrailingWs_prefixOf : ∀ l : List Char, dropTrailingWs l <+: l := by
  intro l
  induction l with
  | nil => exact List.prefix_rfl
  | cons c rest ih =>
    rw [dropTrailingWs_cons]
    split
    · exact List.nil_prefix
    · rw [List.cons_prefix_cons]
      exact ⟨rfl, ih⟩

theorem stripChars_infixOf (s : List Char) : stripChars s <:+: s :=
  (dropTrailingWs_prefixOf _).isInfix.trans (List.dropWhile_suffix _).isInfix

theorem mem_dropWhileWs {c : Char} (hc : isWs c = false) :
    ∀ l : List Char, c ∈ l → c ∈ l.dropWhile isWs := by
  intro l
  induction l with
  | nil => intro h; exact absurd h (List.not_mem_nil c)
  | cons d rest ih =>
    intro h
    rw [List.dropWhile_cons]
    split
    · next hd =>
      rcases List.mem_cons.mp h with h1 | h1
      · rw [h1] at hc; rw [hc] at hd; exact absurd hd (by simp)
      · exact ih h1
    · exact h

theorem mem_dropTrailingWs {c : Char} (hc : isWs c = false) :
    ∀ l : List Char, c ∈ l → c ∈ dropTrailingWs l := by
  intro l
  induction l with
  | nil => intro h; exact absurd h (List.not_mem_nil c)
  | cons d rest ih =>
    intro h
    rw [dropTrailingWs_cons]
    split
    · next hcond =>
      rcases List.mem_cons.mp h with h1 | h1
      · rw [Bool.and_eq_true] at hcond
        rw [h1] at hc; rw [hc] at hcond
        exact absurd hcond.2 (by simp)
      · have h2 := ih h1
        rw [Bool.and_eq_true, List.isEmpty_iff] at hcond
        rw [hcond.1] at h2
        exact absurd h2 (List.not_mem_nil c)
    · rcases List.mem_cons.mp h with h1 | h1
      · exact h1 ▸ List.mem_cons_self d _
      · exact List.mem_cons_of_mem d (ih h1)

theorem mem_stripChars {c : Char} (hc : isWs c = false) (l : List Char) (h : c ∈ l) :
    c ∈ stripChars l :=
  mem_dropTrailingWs hc _ (mem_dropWhileWs hc l h)

theorem splitOnStr_of_not_occurs (sep : List Char) (hsep : sep ≠ []) :
    ∀ l, occurs sep l = false → splitOnStr sep l = [l] := by
  intro l
  induction l with
  | nil => intro _; rfl
  | cons c rest ih =>
    intro h
    simp only [occurs, Bool.or_eq_false_iff] at h
    rw [splitOnStr_cons, if_neg (fun hcon => by rw [hcon.2] at h; exact absurd h.1 (by simp)),
      ih h.2]

theorem splitOn_eq_single_of_not_mem {a : Char} {l : List Char} (h : a ∉ l) :
    List.splitOn a l = [l] := by
  exact List.splitOnP_eq_single _ _ (fun x hx hbeq => h (beq_iff_eq.mp hbeq ▸ hx))

theorem dropWhile_ne_of_mem (a : Char) :
    ∀ l : List Char, a ∈ l → ∃ r, l.dropWhile (fun c => c ≠ a) = a :: r := by
  intro l
  induction l with
  | nil => intro h; exact absurd h (List.not_mem_nil a)
  | cons c rest ih =>
    intro h
    rw [List.dropWhile_cons]
    split
    · next hne =>
      have hca : ¬c = a := by simpa using hne
      rcases List.mem_cons.mp h with h1 | h1
      · exact absurd h1.symm hca
      · exact ih h1
    · next hne =>
      have hca : c = a := by simpa using hne
      exact ⟨rest, by rw [hca]⟩

/-- Whether a classifier result is the Error variant. -/
def errorResult : ParsedRequest → Bool
  | .error _ => true
  | _ => false

theorem pieceArgs_single_error (P : ExprParser)
    (hsemi : ∀ s, ';' ∈ s → ∃ e, P s = .error e)
    (inner : List Char) (hin : ';' ∈ inner) (hcomma : ',' ∈ inner) :
    ∃ e, pieceArgs P [inner] = .error e := by
  obtain ⟨r, hr⟩ := dropWhile_ne_of_mem ',' inner hcomma
  have hsplit2 : (splitFirst ',' inner).2 = r := by
    unfold splitFirst
    rw [hr]
    rfl
  have hdecomp : inner.takeWhile (fun c => c ≠ ',') ++ ',' :: r = inner := by
    rw [← hr]
    exact List.takeWhile_append_dropWhile _ _
  have hcontains : inner.contains ',' = true := List.elem_iff.mpr hcomma
  have hmem : ';' ∈ inner.takeWhile (fun c => c ≠ ',') ∨ ';' ∈ r := by
    rw [← hdecomp] at hin
    rcases List.mem_append.mp hin with h1 | h1
    · exact Or.inl h1
    · rcases List.mem_cons.mp h1 with h2 | h2
      · exact absurd h2 (by decide)
      · exact Or.inr h2
  unfold pieceArgs
  rw [if_pos hcontains]
  rcases hmem with hm | hm
  · have hsc : ';' ∈ stripChars (splitFirst ',' inner).1 := by
      refine mem_stripChars (by decide) _ ?_
      unfold splitFirst
      exact hm
    obtain ⟨e, he⟩ := hsemi _ hsc
    rw [he]
    exact ⟨e, rfl⟩
  · cases hP1 : P (stripChars (splitFirst ',' inner).1) with
    | error e => exact ⟨e, rfl⟩
    | ok ex =>
      have hsc : ';' ∈ stripChars (splitFirst ',' inner).2 := by
        refine mem_stripChars (by decide) _ ?_
        rw [hsplit2]
        exact hm
      obtain ⟨e, he⟩ := hsemi _ hsc
      rw [he]
      exact ⟨e, rfl⟩

theorem parsePart_badBlock_error (P : ExprParser)
    (hsemi : ∀ s, ';' ∈ s → ∃ e, P s = .error e)
    (hbrace : ∀ s, '\x7b' ∈ s → ∃ e, P s = .error e)
    (inner : List Char)
    (hb : ∃ b ∈ List.splitOn ';' inner, ',' ∉ b)
    (hph : occurs PLACEHOLDER inner = false) :
    ∃ m, parsePart P ('\x7b' :: inner ++ ['\x7d']) = .error m := by
  have hcond : (('\x7b' :: inner ++ ['\x7d']).head? == some '\x7b' &&
      ('\x7b' :: inner ++ ['\x7d']).getLast? == some '\x7d') = true := by
    rw [Bool.and_eq_true]
    constructor
    · rfl
    · rw [List.getLast?_concat]
      rfl
  have hcontent : ('\x7b' :: inner ++ ['\x7d']).tail.dropLast = inner := by
    rw [List.cons_append, List.tail_cons, List.dropLast_concat]
  unfold parsePart
  rw [if_pos hcond, hcontent, splitOnStr_of_not_occurs PLACEHOLDER (by decide) inner hph]
  by_cases hcomma : ',' ∈ inner
  · have hin : ';' ∈ inner := by
      by_contra hno
      obtain ⟨b, hbmem, hbc⟩ := hb
      rw [splitOn_eq_single_of_not_mem hno] at hbmem
      rw [List.mem_singleton.mp hbmem] at hbc
      exact hbc hcomma
    obtain ⟨e, he⟩ := pieceArgs_single_error P hsemi inner hin hcomma
    rw [he]
    exact ⟨_, rfl⟩
  · have hargs : pieceArgs P [inner] = .ok .nil := by
      unfold pieceArgs
      rw [if_neg (fun hcon => hcomma (List.elem_iff.mp hcon))]
      rfl
    rw [hargs]
    obtain ⟨e, he⟩ := hbrace ('\x7b' :: inner ++ ['\x7d'])
      (List.mem_append.mpr (Or.inl (List.mem_cons_self '\x7b' inner)))
    refine ⟨mkParseErr ('\x7b' :: inner ++ ['\x7d']) e, ?_⟩
    show (match P ('\x7b' :: inner ++ ['\x7d']) with
      | Except.error er => Except.error (mkParseErr ('\x7b' :: inner ++ ['\x7d']) er)
      | Except.ok ex => (Except.ok ex : Except (List Char) SymExpr)) = _
    rw [he]

theorem stripLeadYEq_brace (l : List Char) : stripLeadYEq ('\x7b' :: l) = '\x7b' :: l := rfl

theorem parts_loop_error_of_badBlock (P : ExprParser)
    (hsemi : ∀ s, ';' ∈ s → ∃ e, P s = .error e)
    (hbrace : ∀ s, '\x7b' ∈ s → ∃ e, P s = .error e) :
    ∀ (parts : List (List Char)) (acc : List SymExpr),
      (∃ rp ∈ parts, ∃ inner,
        stripChars (restorePH rp) = '\x7b' :: inner ++ ['\x7d'] ∧
        ∃ b ∈ List.splitOn ';' inner, ',' ∉ b) →
      errorResult (parts_loop P parts acc) = true := by
  intro parts
  induction parts with
  | nil =>
    intro acc ⟨rp, hmem, _⟩
    exact absurd hmem (List.not_mem_nil rp)
  | cons q rest ih =>
    intro acc ⟨rp, hmem, inner, heq, hbad⟩
    rcases List.mem_cons.mp hmem with hq | hq
    · subst hq
      have hne : (stripChars (restorePH rp)).isEmpty = false := by
        rw [heq]; rfl
      have hph : occurs PLACEHOLDER inner = false := by
        have h1 : occurs PLACEHOLDER (restorePH rp) = false := by
          unfold restorePH
          exact occurs_replaceAll_self _ _ _ (by decide) (by decide) (by decide)
        have h2 : occurs PLACEHOLDER (stripChars (restorePH rp)) = false :=
          occurs_eq_false_mono (stripChars_infixOf _) h1
        rw [heq] at h2
        refine occurs_eq_false_mono ?_ h2
        exact ⟨['\x7b'], ['\x7d'], rfl⟩
      obtain ⟨m, hm⟩ := parsePart_badBlock_error P hsemi hbrace inner hbad hph
      unfold parts_loop
      rw [hne]
      simp only [Bool.false_eq_true, if_false]
      rw [heq, List.cons_append, stripLeadYEq_brace]
      rw [List.cons_append] at hm
      rw [hm]
      rfl
    · unfold parts_loop
      split
      · exact ih acc ⟨rp, hq, inner, heq, hbad⟩
      · cases hpp : parsePart P (stripLeadYEq (stripChars (restorePH q))) with
        | error m => rfl
        | ok e => exact ih _ ⟨rp, hq, inner, heq, hbad⟩

/-- Claim C4: a piecewise branch lacking a comma-separated condition makes the
whole request fail with an Error variant; no branch is ever silently dropped
from an assembled piecewise expression.  The expression parser is abstract,
constrained as the specification's grammar demands: strings containing a
semicolon or a brace are not expressions and fail to parse. -/
theorem C4_piecewise_missing_condition (P : ExprParser)
    (hsemi : ∀ s, ';' ∈ s → ∃ e, P s = .error e)
    (hbrace : ∀ s, '\x7b' ∈ s → ∃ e, P s = .error e)
    (text : List Char)
    (hbad : ∃ rp ∈ List.splitOn ';' (protectBraces text), ∃ inner,
        stripChars (restorePH rp) = '\x7b' :: inner ++ ['\x7d'] ∧
        ∃ b ∈ List.splitOn ';' inner, ',' ∉ b) :
    errorResult (parse_multiple_functions P text) = true :=
  parts_loop_error_of_badBlock P hsemi hbrace _ [] hbad

/-- Witness for claim C4 at the block containing branch x with condition x<0
followed by the conditionless branch 5. -/
theorem C4_piecewise_missing_condition_witness :
    errorResult (parse_multiple_functions specRejectParser "\x7bx, x<0; 5\x7d".toList) = true :=
  C4_piecewise_missing_condition specRejectParser
    (fun s hs => ⟨"invalid syntax".toList, by
      unfold specRejectParser
      rw [if_pos (by rw [Bool.or_eq_true]; exact Or.inl (List.elem_iff.mpr hs))]⟩)
    (fun s hs => ⟨"invalid syntax".toList, by
      unfold specRejectParser
      rw [if_pos (by rw [Bool.or_eq_true]; exact Or.inr (List.elem_iff.mpr hs))]⟩)
    "\x7bx, x<0; 5\x7d".toList
    ⟨"\x7bx, x<0##SEMICOLON## 5\x7d".toList, by decide, "x, x<0; 5".toList, by decide,
      " 5".toList, by decide, by decide⟩

/-! Lemmas for the discontinuity-segmentation claim. -/

theorem clean_data_cons (thr : ℚ) (p q : ℚ × ℚ) (rest : List (ℚ × ℚ)) :
    clean_data_for_plot thr (p :: q :: rest) =
      some p :: ((if steep thr p q then [none] else []) ++
        clean_data_for_plot thr (q :: rest)) := by
  by_cases h : steep thr p q
  · rw [clean_data_for_plot, if_pos h, if_pos h]
    rfl
  · rw [clean_data_for_plot, if_neg h, if_neg h]
    rfl

theorem clean_data_head (thr : ℚ) (q : ℚ × ℚ) (B : List (ℚ × ℚ)) :
    ∃ T, clean_data_for_plot thr (q :: B) = some q :: T := by
  cases B with
  | nil => exact ⟨[], rfl⟩
  | cons b r =>
    rw [clean_data_cons]
    exact ⟨_, rfl⟩

theorem clean_data_append (thr : ℚ) :
    ∀ (A tail : List (ℚ × ℚ)), tail ≠ [] →
      ∃ C, clean_data_for_plot thr (A ++ tail) = C ++ clean_data_for_plot thr tail := by
  intro A
  induction A with
  | nil => intro tail _; exact ⟨[], rfl⟩
  | cons a A' ih =>
    intro tail htail
    obtain ⟨C', hC⟩ := ih tail htail
    cases hA : A' ++ tail with
    | nil => exact absurd (List.append_eq_nil.mp hA).2 htail
    | cons b r =>
      refine ⟨some a :: ((if steep thr a b then [none] else []) ++ C'), ?_⟩
      rw [List.cons_append, hA, clean_data_cons, ← hA, hC]
      simp

theorem runCountAux_ge {α : Type} (p q : α) (Y : List (Option α)) :
    ∀ (X : List (Option α)) (b : Bool),
      (if b then 1 else 2) ≤ runCountAux b (X ++ some p :: none :: some q :: Y) := by
  intro X
  induction X with
  | nil =>
    intro b
    cases b <;> simp [runCountAux] <;> omega
  | cons x X' ih =>
    intro b
    cases x with
    | none =>
      rw [List.cons_append, runCountAux]
      have h2 := ih false
      simp only [if_false] at h2
      cases b <;> simpa using Nat.le_trans (by norm_num) h2
    | some v =>
      rw [List.cons_append, runCountAux]
      have h1 := ih true
      simp only [if_true] at h1
      cases b <;> simp <;> omega

theorem runCount_ge_two {α : Type} (p q : α) (X Y : List (Option α)) :
    2 ≤ runCount (X ++ some p :: none :: some q :: Y) := by
  have h := runCountAux_ge p q Y X false
  simpa [runCount] using h

theorem samples_decomp :
    oneOverXSamples =
      (List.range 499).map (fun i => (sampleX i, 1 / sampleX i)) ++
        (sampleX 499, 1 / sampleX 499) :: (sampleX 500, 1 / sampleX 500) ::
          (List.range 499).map (fun i => (sampleX (501 + i), 1 / sampleX (501 + i))) := by
  rfl

theorem sampleX_499 : sampleX 499 = -10 / 999 := by
  unfold sampleX
  push_cast
  norm_num

theorem sampleX_500 : sampleX 500 = 10 / 999 := by
  unfold sampleX
  push_cast
  norm_num

theorem steep_at_zero :
    steep 100 (sampleX 499, 1 / sampleX 499) (sampleX 500, 1 / sampleX 500) := by
  unfold steep
  rw [sampleX_499, sampleX_500]
  rw [abs_of_pos (by norm_num)]
  norm_num

/-- Claim C3: a gap marker is inserted between two consecutive samples exactly
when the absolute forward-difference slope exceeds the threshold, and the
sampled function one over x at resolution 1000 over the default domain with
threshold 100 yields at least two disjoint runs with a gap straddling zero. -/
theorem C3_discontinuity_segmentation :
    (∀ (thr : ℚ) (p q : ℚ × ℚ) (rest : List (ℚ × ℚ)),
        clean_data_for_plot thr (p :: q :: rest) =
          some p :: ((if steep thr p q then [none] else []) ++
            clean_data_for_plot thr (q :: rest))) ∧
    2 ≤ runCount (clean_data_for_plot 100 oneOverXSamples) ∧
    (∃ A B x₁ y₁ x₂ y₂,
        clean_data_for_plot 100 oneOverXSamples =
          A ++ some (x₁, y₁) :: none :: some (x₂, y₂) :: B ∧ x₁ < 0 ∧ 0 < x₂) := by
  have htail : ((sampleX 499, 1 / sampleX 499) :: (sampleX 500, 1 / sampleX 500) ::
      (List.range 499).map (fun i => (sampleX (501 + i), 1 / sampleX (501 + i)))) ≠
        ([] : List (ℚ × ℚ)) := by simp
  obtain ⟨C, hC⟩ := clean_data_append 100
    ((List.range 499).map (fun i => (sampleX i, 1 / sampleX i))) _ htail
  obtain ⟨T, hT⟩ := clean_data_head 100 (sampleX 500, 1 / sampleX 500)
    ((List.range 499).map (fun i => (sampleX (501 + i), 1 / sampleX (501 + i))))
  have hmid : clean_data_for_plot 100
      ((sampleX 499, 1 / sampleX 499) :: (sampleX 500, 1 / sampleX 500) ::
        (List.range 499).map (fun i => (sampleX (501 + i), 1 / sampleX (501 + i)))) =
      some (sampleX 499, 1 / sampleX 499) :: none ::
        some (sampleX 500, 1 / sampleX 500) :: T := by
    rw [clean_data_cons, if_pos steep_at_zero, hT]
    rfl
  have hall : clean_data_for_plot 100 oneOverXSamples =
      C ++ some (sampleX 499, 1 / sampleX 499) :: none ::
        some (sampleX 500, 1 / sampleX 500) :: T := by
    rw [samples_decomp, hC, hmid]
  refine ⟨clean_data_cons, ?_, ?_⟩
  · rw [hall]
    exact runCount_ge_two _ _ _ _
  · refine ⟨C, T, sampleX 499, 1 / sampleX 499, sampleX 500, 1 / sampleX 500, hall, ?_, ?_⟩
    · rw [sampleX_499]; norm_num
    · rw [sampleX_500]; norm_num

/-! Character-level lemmas for the idempotence of normalization. -/

theorem lookup_mem_values :
    ∀ (t : List (Char × Char)) (c d : Char), t.lookup c = some d → d ∈ t.map Prod.snd := by
  intro t
  induction t with
  | nil => intro c d h; exact absurd h (by simp)
  | cons p rest ih =>
    intro c d h
    cases p with
    | mk k v =>
      rw [List.lookup] at h
      by_cases hck : (c == k) = true
      · rw [hck] at h
        have hv : some v = some d := h
        rw [List.map_cons]
        exact (Option.some_inj.mp hv) ▸ List.mem_cons_self v _
      · rw [Bool.not_eq_true] at hck
        rw [hck] at h
        have hv : List.lookup c rest = some d := h
        exact List.mem_cons_of_mem _ (ih c d hv)

theorem lowerTable_values_not_keys :
    ∀ d ∈ lowerTable.map Prod.snd, lowerTable.lookup d = none := by decide

theorem toLowerCh_idem (c : Char) : toLowerCh (toLowerCh c) = toLowerCh c := by
  unfold toLowerCh
  cases h : lowerTable.lookup c with
  | none =>
    simp only [Option.getD_none]
    rw [h, Option.getD_none]
  | some d =>
    simp only [Option.getD_some]
    rw [lowerTable_values_not_keys d (lookup_mem_values lowerTable c d h), Option.getD_none]

theorem toLowerCh_mem_or_self (c : Char) :
    toLowerCh c = c ∨ toLowerCh c ∈ lowerTable.map Prod.snd := by
  unfold toLowerCh
  cases h : lowerTable.lookup c with
  | none => rw [Option.getD_none]; exact Or.inl rfl
  | some d => rw [Option.getD_some]; exact Or.inr (lookup_mem_values lowerTable c d h)

theorem toLowerCh_ne_bar {c : Char} (hc : c ≠ '|') : toLowerCh c ≠ '|' := by
  rcases toLowerCh_mem_or_self c with h | h
  · rw [h]; exact hc
  · intro hbar
    rw [hbar] at h
    exact absurd h (by decide)

/-- Whether the first character, if any, is not whitespace. -/
def headNotWs : List Char → Bool
  | [] => true
  | c :: _ => !isWs c

/-- Whether the last character, if any, is not whitespace. -/
def lastNotWs (l : List Char) : Bool :=
  match l.getLast? with
  | none => true
  | some c => !isWs c

theorem getLast?_of_suffix {l₁ l₂ : List Char} (h : l₁ <:+ l₂) (hne : l₁ ≠ []) :
    l₂.getLast? = l₁.getLast? := by
  obtain ⟨pre, rfl⟩ := h
  rw [List.getLast?_append]
  cases hl : l₁.getLast? with
  | none => exact absurd (List.getLast?_eq_none_iff.mp hl) hne
  | some a => rfl

theorem lastNotWs_of_suffix {l₁ l₂ : List Char} (h : l₁ <:+ l₂) (hne : l₁ ≠ [])
    (h₂ : lastNotWs l₂ = true) : lastNotWs l₁ = true := by
  unfold lastNotWs at h₂ ⊢
  rw [← getLast?_of_suffix h hne]
  exact h₂

theorem lastNotWs_cons_of_ne {c : Char} {l : List Char} (hl : l ≠ [])
    (h : lastNotWs l = true) : lastNotWs (c :: l) = true := by
  unfold lastNotWs at h ⊢
  rw [show (c :: l).getLast? = l.getLast? from getLast?_of_suffix (List.suffix_cons c l) hl]
  exact h

theorem lastNotWs_append_of_ne {l₁ l₂ : List Char} (hl : l₂ ≠ [])
    (h : lastNotWs l₂ = true) : lastNotWs (l₁ ++ l₂) = true := by
  unfold lastNotWs at h ⊢
  rw [show (l₁ ++ l₂).getLast? = l₂.getLast? from
    getLast?_of_suffix (List.suffix_append l₁ l₂) hl]
  exact h

theorem headNotWs_dropWhileWs (l : List Char) : headNotWs (l.dropWhile isWs) = true := by
  induction l with
  | nil => rfl
  | cons c rest ih =>
    rw [List.dropWhile_cons]
    split
    · exact ih
    · next h => unfold headNotWs; simpa using h

theorem lastNotWs_dropTrailingWs (l : List Char) : lastNotWs (dropTrailingWs l) = true := by
  induction l with
  | nil => rfl
  | cons c rest ih =>
    rw [dropTrailingWs_cons]
    split
    · rfl
    · next h =>
      by_cases hr : dropTrailingWs rest = []
      · rw [hr]
        rw [hr] at h
        unfold lastNotWs
        simp only [List.getLast?_singleton]
        simp only [hr, List.isEmpty_nil, Bool.true_and] at h
        simpa using h
      · exact lastNotWs_cons_of_ne hr ih

theorem headNotWs_dropTrailingWs (l : List Char) (h : headNotWs l = true) :
    headNotWs (dropTrailingWs l) = true := by
  cases l with
  | nil => rfl
  | cons c rest =>
    rw [dropTrailingWs_cons]
    split
    · rfl
    · exact h

theorem headNotWs_stripChars (s : List Char) : headNotWs (stripChars s) = true :=
  headNotWs_dropTrailingWs _ (headNotWs_dropWhileWs s)

theorem lastNotWs_stripChars (s : List Char) : lastNotWs (stripChars s) = true :=
  lastNotWs_dropTrailingWs _

theorem dropWhileWs_eq_self {s : List Char} (h : headNotWs s = true) :
    s.dropWhile isWs = s := by
  cases s with
  | nil => rfl
  | cons c rest =>
    rw [List.dropWhile_cons, if_neg]
    unfold headNotWs at h
    simpa using h

theorem dropTrailingWs_eq_self : ∀ {s : List Char}, lastNotWs s = true →
    dropTrailingWs s = s := by
  intro s
  induction s with
  | nil => intro _; rfl
  | cons c rest ih =>
    intro h
    by_cases hr : rest = []
    · subst hr
      rw [dropTrailingWs_cons]
      unfold lastNotWs at h
      simp only [List.getLast?_singleton] at h
      rw [if_neg]
      · rfl
      · intro hcon
        rw [Bool.and_eq_true] at hcon
        rw [hcon.2] at h
        exact absurd h (by simp)
    · have hrest : dropTrailingWs rest = rest :=
        ih (lastNotWs_of_suffix (List.suffix_cons c rest) hr h)
      rw [dropTrailingWs_cons, hrest, if_neg]
      intro hcon
      rw [Bool.and_eq_true, List.isEmpty_iff] at hcon
      exact hr hcon.1

theorem stripChars_eq_self {s : List Char} (h1 : headNotWs s = true)
    (h2 : lastNotWs s = true) : stripChars s = s := by
  unfold stripChars
  rw [dropWhileWs_eq_self h1, dropTrailingWs_eq_self h2]

theorem stripChars_subset (s : List Char) : stripChars s ⊆ s :=
  (stripChars_infixOf s).sublist.subset

/-! Edge-character and occurrence preservation through the replacement
machinery. -/

theorem replaceAllGo_ne_nil (old new : List Char) (hnew : new ≠ []) :
    ∀ (fuel : Nat) (s : List Char), s ≠ [] → replaceAllGo old new fuel s ≠ [] := by
  intro fuel s hs
  cases fuel with
  | zero => exact hs
  | succ f =>
    cases s with
    | nil => exact absurd rfl hs
    | cons c rest =>
      rw [replaceAllGo]
      split
      · simp [hnew]
      · simp

theorem headNotWs_replaceAllGo (old new : List Char) (hne : new ≠ [])
    (hnew : headNotWs new = true) :
    ∀ (fuel : Nat) (s : List Char), headNotWs s = true →
      headNotWs (replaceAllGo old new fuel s) = true := by
  intro fuel s hs
  cases fuel with
  | zero => exact hs
  | succ f =>
    cases s with
    | nil => rfl
    | cons c rest =>
      rw [replaceAllGo]
      split
      · cases new with
        | nil => exact absurd rfl hne
        | cons n ns => exact hnew
      · exact hs

theorem lastNotWs_replaceAllGo (old new : List Char) (hnew : new ≠ [])
    (hlast : lastNotWs new = true) :
    ∀ (fuel : Nat) (s : List Char), lastNotWs s = true →
      lastNotWs (replaceAllGo old new fuel s) = true := by
  intro fuel
  induction fuel with
  | zero => intro s hs; exact hs
  | succ f ih =>
    intro s hs
    cases s with
    | nil => rfl
    | cons c rest =>
      rw [replaceAllGo]
      split
      · next hc =>
        by_cases hR : replaceAllGo old new f ((c :: rest).drop old.length) = []
        · rw [hR, List.append_nil]
          exact hlast
        · refine lastNotWs_append_of_ne hR (ih _ ?_)
          by_cases hdrop : (c :: rest).drop old.length = []
          · rw [hdrop] at hR
            cases f with
            | zero => exact absurd rfl hR
            | succ g => exact absurd rfl hR
          · exact lastNotWs_of_suffix (List.drop_suffix _ _) hdrop hs
      · by_cases hR : replaceAllGo old new f rest = []
        · rw [hR]
          by_cases hrest : rest = []
          · subst hrest
            exact hs
          · exact absurd hR (replaceAllGo_ne_nil old new hnew f rest hrest)
        · refine lastNotWs_cons_of_ne hR (ih _ ?_)
          have hrest : rest ≠ [] := by
            intro hcon
            rw [hcon] at hR
            cases f with
            | zero => exact absurd rfl hR
            | succ g => exact absurd rfl hR
          exact lastNotWs_of_suffix (List.suffix_cons c rest) hrest hs

theorem occurs_replaceAllGo_other (old new pat : List Char) (hpat : pat ≠ [])
    (hnew : new ≠ []) (hdisj : ∀ c ∈ pat, c ∉ new) :
    ∀ (fuel : Nat) (s : List Char), occurs pat s = false →
      occurs pat (replaceAllGo old new fuel s) = false := by
  intro fuel
  induction fuel with
  | zero => intro s hs; exact hs
  | succ f ih =>
    intro s hs
    cases s with
    | nil =>
      cases pat with
      | nil => exact absurd rfl hpat
      | cons p0 ps => rfl
    | cons c rest =>
      simp only [occurs, Bool.or_eq_false_iff] at hs
      rw [replaceAllGo]
      split
      · have hdropped : occurs pat ((c :: rest).drop old.length) = false := by
          refine occurs_eq_false_mono (List.drop_suffix _ _).isInfix ?_
          simp only [occurs, Bool.or_eq_false_iff]
          exact hs
        have hR := ih _ hdropped
        cases hoc : occurs pat (new ++ replaceAllGo old new f ((c :: rest).drop old.length)) with
        | false => rfl
        | true =>
          have h2 := occurs_across_disjoint pat hpat new _ hdisj hoc
          rw [hR] at h2
          exact h2.symm
      · rw [occurs, ih rest hs.2]
        simp only [Bool.or_false]
        cases hpre : pat.isPrefixOf (c :: replaceAllGo old new f rest) with
        | false => rfl
        | true =>
          exfalso
          rw [List.isPrefixOf_iff_prefix] at hpre
          cases pat with
          | nil => exact absurd rfl hpat
          | cons p0 ps =>
            rw [List.cons_prefix_cons] at hpre
            have hps : ps <+: rest := by
              by_cases hpsnil : ps = []
              · subst hpsnil; simp
              · refine prefix_replaceAllGo old new hnew f rest ps hpsnil ?_ hpre.2
                exact fun d hd => hdisj d (List.mem_cons_of_mem p0 hd)
            have : (p0 :: ps).isPrefixOf (c :: rest) = true := by
              rw [List.isPrefixOf_iff_prefix, List.cons_prefix_cons]
              exact ⟨hpre.1, hps⟩
            rw [this] at hs
            exact absurd hs.1 (by simp)

theorem absBarsGo_no_bar :
    ∀ (fuel : Nat) (s : List Char), '|' ∉ s → absBarsGo fuel s = s := by
  intro fuel
  induction fuel with
  | zero => intro s _; rfl
  | succ f ih =>
    intro s h
    cases s with
    | nil => rfl
    | cons c rest =>
      have hc : c ≠ '|' := fun hcon => h (hcon ▸ List.mem_cons_self c rest)
      rw [absBarsGo, if_neg hc, ih rest (fun hcon => h (List.mem_cons_of_mem c hcon))]

theorem absBars_no_bar (s : List Char) (h : '|' ∉ s) : absBars s = s :=
  absBarsGo_no_bar s.length s h

/-! Preservation lemmas for the whole mapping table. -/

theorem mem_applyMappings :
    ∀ (maps : List (List Char × List Char)) (s : List Char) (a : Char),
      a ∈ applyMappings maps s → a ∈ s ∨ ∃ p ∈ maps, a ∈ p.2 := by
  intro maps
  induction maps with
  | nil => intro s a h; exact Or.inl h
  | cons m rest ih =>
    intro s a h
    rcases ih _ a h with h1 | ⟨p, hp, hmem⟩
    · rcases mem_replaceAll _ _ _ _ h1 with h2 | h2
      · exact Or.inr ⟨m, List.mem_cons_self m rest, h2⟩
      · exact Or.inl h2
    · exact Or.inr ⟨p, List.mem_cons_of_mem m hp, hmem⟩

theorem applyMappings_id :
    ∀ (maps : List (List Char × List Char)) (s : List Char),
      (∀ p ∈ maps, occurs p.1 s = false) → applyMappings maps s = s := by
  intro maps
  induction maps with
  | nil => intro s _; rfl
  | cons m rest ih =>
    intro s h
    show applyMappings rest (replaceAll m.1 m.2 s) = s
    rw [replaceAll_of_not_occurs _ _ _ (h m (List.mem_cons_self m rest))]
    exact ih s (fun p hp => h p (List.mem_cons_of_mem m hp))

theorem headNotWs_applyMappings :
    ∀ (maps : List (List Char × List Char)) (s : List Char),
      (∀ p ∈ maps, p.2 ≠ [] ∧ headNotWs p.2 = true) → headNotWs s = true →
      headNotWs (applyMappings maps s) = true := by
  intro maps
  induction maps with
  | nil => intro s _ hs; exact hs
  | cons m rest ih =>
    intro s h hs
    exact ih _ (fun p hp => h p (List.mem_cons_of_mem m hp))
      (headNotWs_replaceAllGo m.1 m.2 (h m (List.mem_cons_self m rest)).1
        (h m (List.mem_cons_self m rest)).2 _ _ hs)

theorem lastNotWs_applyMappings :
    ∀ (maps : List (List Char × List Char)) (s : List Char),
      (∀ p ∈ maps, p.2 ≠ [] ∧ lastNotWs p.2 = true) → lastNotWs s = true →
      lastNotWs (applyMappings maps s) = true := by
  intro maps
  induction maps with
  | nil => intro s _ hs; exact hs
  | cons m rest ih =>
    intro s h hs
    exact ih _ (fun p hp => h p (List.mem_cons_of_mem m hp))
      (lastNotWs_replaceAllGo m.1 m.2 (h m (List.mem_cons_self m rest)).1
        (h m (List.mem_cons_self m rest)).2 _ _ hs)

theorem occurs_applyMappings_other :
    ∀ (maps : List (List Char × List Char)) (pat : List Char) (s : List Char),
      pat ≠ [] → (∀ p ∈ maps, p.2 ≠ [] ∧ ∀ c ∈ pat, c ∉ p.2) →
      occurs pat s = false → occurs pat (applyMappings maps s) = false := by
  intro maps
  induction maps with
  | nil => intro pat s _ _ hs; exact hs
  | cons m rest ih =>
    intro pat s hpat h hs
    exact ih pat _ hpat (fun p hp => h p (List.mem_cons_of_mem m hp))
      (occurs_replaceAllGo_other m.1 m.2 pat hpat (h m (List.mem_cons_self m rest)).1
        (h m (List.mem_cons_self m rest)).2 _ _ hs)

theorem applyMappings_no_keys :
    ∀ (maps : List (List Char × List Char)) (s : List Char),
      (∀ p ∈ maps, p.1 ≠ [] ∧ p.2 ≠ []) →
      (∀ p ∈ maps, ∀ q ∈ maps, ∀ c ∈ p.1, c ∉ q.2) →
      ∀ p ∈ maps, occurs p.1 (applyMappings maps s) = false := by
  intro maps
  induction maps with
  | nil => intro s _ _ p hp; exact absurd hp (List.not_mem_nil p)
  | cons m rest ih =>
    intro s hne hdisj p hp
    rcases List.mem_cons.mp hp with hpm | hpm
    · subst hpm
      show occurs p.1 (applyMappings rest (replaceAll p.1 p.2 s)) = false
      refine occurs_applyMappings_other rest p.1 _
        (hne p (List.mem_cons_self p rest)).1
        (fun q hq => ⟨(hne q (List.mem_cons_of_mem p hq)).2,
          hdisj p (List.mem_cons_self p rest) q (List.mem_cons_of_mem p hq)⟩) ?_
      exact occurs_replaceAll_self _ _ _ (hne p (List.mem_cons_self p rest)).1
        (hne p (List.mem_cons_self p rest)).2
        (hdisj p (List.mem_cons_self p rest) p (List.mem_cons_self p rest))
    · exact ih _ (fun q hq => hne q (List.mem_cons_of_mem m hq))
        (fun q hq r hr => hdisj q (List.mem_cons_of_mem m hq) r (List.mem_cons_of_mem m hr))
        p hpm

theorem map_toLowerCh_fixed : ∀ (l : List Char), (∀ c ∈ l, toLowerCh c = c) →
    l.map toLowerCh = l := by
  intro l
  induction l with
  | nil => intro _; rfl
  | cons c rest ih =>
    intro h
    rw [List.map_cons, h c (List.mem_cons_self c rest),
      ih (fun d hd => h d (List.mem_cons_of_mem c hd))]

set_option maxHeartbeats 1000000 in
/-- Claim C9 amended: for every input text containing no bar character, the
normalization pass is idempotent.  (With bars, a leftover unpaired bar from
the first pass can pair up with the abs rewrite's output on the second pass,
as the counterexample with doubled bars shows.) -/
theorem C9_normalization_idempotent (s : List Char) (hbar : '|' ∉ s) :
    preprocess_input (preprocess_input s) = preprocess_input s := by
  have D1 : ∀ q ∈ FUNCTION_MAPPINGS, q.1 ≠ [] ∧ q.2 ≠ [] := by decide
  have D2 : ∀ q ∈ FUNCTION_MAPPINGS, ∀ r ∈ FUNCTION_MAPPINGS, ∀ c ∈ q.1, c ∉ r.2 := by
    decide
  have D3 : ∀ q ∈ FUNCTION_MAPPINGS, q.2 ≠ [] ∧ headNotWs q.2 = true := by decide
  have D4 : ∀ q ∈ FUNCTION_MAPPINGS, q.2 ≠ [] ∧ lastNotWs q.2 = true := by decide
  have D5 : ∀ q ∈ FUNCTION_MAPPINGS, ∀ c ∈ q.2, toLowerCh c = c := by decide
  have D6 : ∀ q ∈ FUNCTION_MAPPINGS, '|' ∉ q.2 := by decide
  have D7 : ∀ q ∈ FUNCTION_MAPPINGS, q.2 ≠ [] ∧ ∀ c ∈ ("^^".toList : List Char), c ∉ q.2 := by
    decide
  set t0 := stripChars (s.map toLowerCh) with ht0
  set t1 := replaceAll "^^".toList "**".toList t0 with ht1
  have h0head : headNotWs t0 = true := headNotWs_stripChars _
  have h0last : lastNotWs t0 = true := lastNotWs_stripChars _
  have h0fix : ∀ c ∈ t0, toLowerCh c = c := by
    intro c hc
    obtain ⟨d, _, rfl⟩ := List.mem_map.mp (stripChars_subset _ hc)
    exact toLowerCh_idem d
  have h0bar : '|' ∉ t0 := by
    intro hc
    obtain ⟨d, hd, hde⟩ := List.mem_map.mp (stripChars_subset _ hc)
    exact toLowerCh_ne_bar (fun hcon => hbar (hcon ▸ hd)) hde
  have h1head : headNotWs t1 = true :=
    headNotWs_replaceAllGo _ _ (by decide) (by decide) _ _ h0head
  have h1last : lastNotWs t1 = true :=
    lastNotWs_replaceAllGo _ _ (by decide) (by decide) _ _ h0last
  have h1fix : ∀ c ∈ t1, toLowerCh c = c := by
    intro c hc
    rcases mem_replaceAll _ _ _ _ hc with h | h
    · exact (by decide : ∀ c ∈ ("**".toList : List Char), toLowerCh c = c) c h
    · exact h0fix c h
  have h1bar : '|' ∉ t1 := by
    intro hc
    rcases mem_replaceAll _ _ _ _ hc with h | h
    · exact absurd h (by decide)
    · exact h0bar h
  have h1caret : occurs "^^".toList t1 = false :=
    occurs_replaceAll_self _ _ _ (by decide) (by decide) (by decide)
  set p := applyMappings FUNCTION_MAPPINGS t1 with hpdef
  have hpre : preprocess_input s = p := by
    show applyMappings FUNCTION_MAPPINGS (absBars t1) = p
    rw [absBars_no_bar t1 h1bar]
  have Fhead : headNotWs p = true := headNotWs_applyMappings _ _ D3 h1head
  have Flast : lastNotWs p = true := lastNotWs_applyMappings _ _ D4 h1last
  have Ffix : ∀ c ∈ p, toLowerCh c = c := by
    intro c hc
    rcases mem_applyMappings _ _ _ hc with h | ⟨q, hq, hmem⟩
    · exact h1fix c h
    · exact D5 q hq c hmem
  have Fbar : '|' ∉ p := by
    intro hc
    rcases mem_applyMappings _ _ _ hc with h | ⟨q, hq, hmem⟩
    · exact h1bar h
    · exact D6 q hq hmem
  have Fcaret : occurs "^^".toList p = false :=
    occurs_applyMappings_other _ _ _ (by decide) D7 h1caret
  have Fkeys : ∀ q ∈ FUNCTION_MAPPINGS, occurs q.1 p = false :=
    applyMappings_no_keys _ _ D1 D2
  rw [hpre]
  show applyMappings FUNCTION_MAPPINGS (absBars (replaceAll "^^".toList "**".toList
    (dropTrailingWs ((p.map toLowerCh).dropWhile isWs)))) = p
  rw [map_toLowerCh_fixed p Ffix,
    show dropTrailingWs (p.dropWhile isWs) = p from stripChars_eq_self Fhead Flast,
    replaceAll_of_not_occurs _ _ _ Fcaret, absBars_no_bar p Fbar]
  exact applyMappings_id _ _ Fkeys

/-- Witness for claim C9's amended theorem at a bar-free Cyrillic input. -/
theorem C9_normalization_idempotent_witness :
    preprocess_input (preprocess_input "СИНУС(X)^^2".toList) =
      preprocess_input "СИНУС(X)^^2".toList :=
  C9_normalization_idempotent "СИНУС(X)^^2".toList (by decide)

end GeoFI
